import Mathlib

set_option maxRecDepth 20000

/-!
Shallow embedding of the OBBPD plugin crash-isolation engine (`OBBPD.py`).

The engine repeatedly launches an external game process against a written
plugin load order and classifies each trial as passed / crashed / paused;
file writes and process launches can also fail.  We model one trial attempt
as one value of `Outcome`, supplied by an oracle `Nat → Outcome` indexed by
the attempt counter.  The ledger of the script (the mutable `safe`, `tested`
and `failed` lists) is the state `St`; every attempt is recorded as a
`Trial` carrying the deduplicated load order that was written, the partition
under test, and the outcome.
-/

/-- Outcome of one write-launch-wait attempt of the external game process.
`pausedResume` is the case where the operator pauses the trial and then
chooses `[R]esume` (the `manual_pause_triggered` RuntimeError path);
`launchFail` is `launch_game()` returning `False`; `writeFail` is a failed
write of the plugins file. -/
inductive Outcome where
  | passed
  | crashed
  | pausedResume
  | launchFail
  | writeFail
  deriving DecidableEq, Repr

/-- The result ledger of `OBBPD.py`: the `safe`, `tested` and `failed` lists. -/
structure St where
  safe : List String
  tested : List String
  failed : List String
  deriving DecidableEq, Repr

/-- One attempt: the load order written to `plugins.txt`, the partition under
test (batch, sub-batch, singleton, mega batch or re-test singleton), and the
oracle's outcome. -/
structure Trial where
  order : List String
  part : List String
  outc : Outcome
  deriving DecidableEq, Repr

/-- Python `str.strip()`: drop leading and trailing whitespace. -/
def stripChars (cs : List Char) : List Char :=
  ((cs.dropWhile Char.isWhitespace).reverse.dropWhile Char.isWhitespace).reverse

/-- Python `p.lower().strip()`: the case-insensitive dedup key. -/
def key (p : String) : String := String.mk (stripChars (p.data.map Char.toLower))

/-- Dedup loop of `run_batch` (section 11): keep the first occurrence of each
nonempty case-insensitive key (`if key and key not in seen`). -/
def dedupKeyedAux : List String → List String → List String
  | [], _ => []
  | p :: rest, seen =>
    if key p ≠ "" ∧ key p ∉ seen then p :: dedupKeyedAux rest (key p :: seen)
    else dedupKeyedAux rest seen

/-- Dedup of `run_batch` applied to a whole list. -/
def dedupKeyed (l : List String) : List String := dedupKeyedAux l []

/-- Dedup loop of `turbo_batch_mode` (section 12): `if pl not in seen and p`
(the key must be unseen and the original string nonempty). -/
def dedupKeyedTurboAux : List String → List String → List String
  | [], _ => []
  | p :: rest, seen =>
    if key p ∉ seen ∧ p ≠ "" then p :: dedupKeyedTurboAux rest (key p :: seen)
    else dedupKeyedTurboAux rest seen

/-- Turbo dedup applied to a whole list. -/
def dedupKeyedTurbo (l : List String) : List String := dedupKeyedTurboAux l []

/-- The raw (pre-dedup) order built at every call site:
`ordered = list(REQUIRED_PLUGINS) + list(OPTIONAL_PATCHES)`;
`ordered += [p for p in safe if p not in ordered]`; `ordered += extra`. -/
def baselinePlus (req opt safe extra : List String) : List String :=
  (req ++ opt) ++ safe.filter (fun p => p ∉ req ++ opt) ++ extra

/-- Load order written before a `run_batch` trial. -/
def mk_order (req opt safe extra : List String) : List String :=
  dedupKeyed (baselinePlus req opt safe extra)

/-- Load order written before a `turbo_batch_mode` trial. -/
def mk_orderT (req opt safe extra : List String) : List String :=
  dedupKeyedTurbo (baselinePlus req opt safe extra)

/-- Fuel-driven helper for `chunksOf`; the fuel is the list length, which is
enough for any chunk size `n ≥ 1`. -/
def chunksOfAux (n : Nat) : Nat → List String → List (List String)
  | _, [] => []
  | 0, l => [l]
  | fuel+1, l => l.take n :: chunksOfAux n fuel (l.drop n)

/-- Python `[batch[i:i+s] for i in range(0, len(batch), s)]` for `s ≥ 1`. -/
def chunksOf (n : Nat) (l : List String) : List (List String) :=
  chunksOfAux n l.length l

/-- `get_batch_size` of `OBBPD.py` (the step function of the spec). -/
def get_batch_size (size : Nat) : Nat :=
  if size ≥ 200 then 25
  else if size ≥ 150 then 20
  else if size ≥ 100 then 15
  else if size ≥ 50 then 10
  else if size ≥ 20 then 5
  else if size ≥ 10 then 3
  else if size ≥ 5 then 2
  else 1

/-- Python `if p not in l: l.append(p)`. -/
def guardAppend (p : String) (l : List String) : List String :=
  if p ∈ l then l else l ++ [p]

/-- Guarded append of one plugin to `safe` and `tested`. -/
def markSafe1 (p : String) (st : St) : St :=
  { st with safe := guardAppend p st.safe, tested := guardAppend p st.tested }

/-- Guarded append of one plugin to `failed` and `tested`. -/
def markFailed (p : String) (st : St) : St :=
  { st with failed := guardAppend p st.failed, tested := guardAppend p st.tested }

/-- Python `for p in ps: if p not in safe: safe.append(p); if p not in tested:
tested.append(p)` - the guarded bulk commit used by `turbo_batch_mode`. -/
def markSafeAll (ps : List String) (st : St) : St :=
  ps.foldl (fun s p => markSafe1 p s) st

/-- Python `safe.extend(batch); tested.extend(batch)` - the unguarded commit
used by `run_batch` on a passed batch or sub-batch. -/
def extendSafe (ps : List String) (st : St) : St :=
  { st with safe := st.safe ++ ps, tested := st.tested ++ ps }

/-! ## The `run_batch` bisection engine (section 11 of the source) -/

/-- The innermost singleton loop of `run_batch` (`for plugin in sub`).  A
write failure `continue`s with the next plugin; a launch failure `break`s the
loop; a pause followed by Resume sets `one_crash = True`, so the plugin is
classified exactly as if the trial had crashed. -/
def runSingles (α : Nat → Outcome) (req opt : List String) :
    List String → St → Nat → St × Nat × List Trial
  | [], st, k => (st, k, [])
  | p :: rest, st, k =>
    let t : Trial := ⟨mk_order req opt st.safe [p], [p], α k⟩
    match α k with
    | .writeFail =>
      let r := runSingles α req opt rest st (k+1)
      (r.1, r.2.1, t :: r.2.2)
    | .launchFail => (st, k+1, [t])
    | .passed =>
      let r := runSingles α req opt rest (markSafe1 p st) (k+1)
      (r.1, r.2.1, t :: r.2.2)
    | .crashed =>
      let r := runSingles α req opt rest (markFailed p st) (k+1)
      (r.1, r.2.1, t :: r.2.2)
    | .pausedResume =>
      let r := runSingles α req opt rest (markFailed p st) (k+1)
      (r.1, r.2.1, t :: r.2.2)

/-- The sub-batch loop of `run_batch` (`for i in range(0, size, sub_size)`).
A write failure `continue`s with the next sub-batch; a launch failure
`break`s the loop; a pause followed by Resume sets `sub_crash = True`.  A
crashed sub-batch of length 1 classifies its plugin Failed directly; a longer
crashed sub-batch is handed to the singleton loop. -/
def runSubs (α : Nat → Outcome) (req opt : List String) :
    List (List String) → St → Nat → St × Nat × List Trial
  | [], st, k => (st, k, [])
  | sub :: rest, st, k =>
    let t : Trial := ⟨mk_order req opt st.safe sub, sub, α k⟩
    match α k with
    | .writeFail =>
      let r := runSubs α req opt rest st (k+1)
      (r.1, r.2.1, t :: r.2.2)
    | .launchFail => (st, k+1, [t])
    | .passed =>
      let r := runSubs α req opt rest (extendSafe sub st) (k+1)
      (r.1, r.2.1, t :: r.2.2)
    | .crashed =>
      match sub with
      | [p] =>
        let r := runSubs α req opt rest (markFailed p st) (k+1)
        (r.1, r.2.1, t :: r.2.2)
      | _ =>
        let r1 := runSingles α req opt sub st (k+1)
        let r := runSubs α req opt rest r1.1 r1.2.1
        (r.1, r.2.1, t :: (r1.2.2 ++ r.2.2))
    | .pausedResume =>
      match sub with
      | [p] =>
        let r := runSubs α req opt rest (markFailed p st) (k+1)
        (r.1, r.2.1, t :: r.2.2)
      | _ =>
        let r1 := runSingles α req opt sub st (k+1)
        let r := runSubs α req opt rest r1.1 r1.2.1
        (r.1, r.2.1, t :: (r1.2.2 ++ r.2.2))

/-- `run_batch(batch, safe, tested, failed, ...)`.  A write or launch failure
returns with the ledger untouched; a passed batch is committed whole by
`extend`; a pause followed by Resume retries the whole call (`return
run_batch(...)`, bounded here by `fuel`); a crashed batch is split into
sub-batches of `get_batch_size(len(batch))`. -/
def run_batch (α : Nat → Outcome) (req opt : List String) :
    Nat → List String → St → Nat → St × Nat × List Trial
  | 0, batch, st, k =>
    let t : Trial := ⟨mk_order req opt st.safe batch, batch, α k⟩
    match α k with
    | .writeFail => (st, k+1, [t])
    | .launchFail => (st, k+1, [t])
    | .passed => (extendSafe batch st, k+1, [t])
    | .pausedResume => (st, k+1, [t])
    | .crashed =>
      let r := runSubs α req opt (chunksOf (get_batch_size batch.length) batch) st (k+1)
      (r.1, r.2.1, t :: r.2.2)
  | fuel+1, batch, st, k =>
    let t : Trial := ⟨mk_order req opt st.safe batch, batch, α k⟩
    match α k with
    | .writeFail => (st, k+1, [t])
    | .launchFail => (st, k+1, [t])
    | .passed => (extendSafe batch st, k+1, [t])
    | .pausedResume =>
      let r := run_batch α req opt fuel batch st (k+1)
      (r.1, r.2.1, t :: r.2.2)
    | .crashed =>
      let r := runSubs α req opt (chunksOf (get_batch_size batch.length) batch) st (k+1)
      (r.1, r.2.1, t :: r.2.2)

/-! ## The recursive isolation procedure described by the spec (section 4.2)

The spec claims the engine recurses: a crashed batch is split into chunks of
`stepFunction(len(batch))` and *each chunk is isolated by the same procedure
again* (so a crashed chunk of length `≥ 2` is re-partitioned by the step
function, down to singletons).  The following pair of definitions transcribes
that recursion from the spec's words, for comparison against `run_batch`. -/

/-- Modelled from the spec (section 4.2 steps 1-4), in depth-first worklist
form so the recursion is structural on `fuel` (one unit per trial): trial the
front batch; Passed commits it whole; a crashed singleton is classified
Failed; a longer crashed batch is split into chunks of
`stepFunction(len(batch))` and the chunks are pushed onto the worklist, so
each chunk is isolated recursively by the same procedure with the re-derived
baseline. -/
def isolateSpecList (α : Nat → Outcome) (req opt : List String) :
    Nat → List (List String) → St → Nat → St × Nat × List Trial
  | 0, _, st, k => (st, k, [])
  | _+1, [], st, k => (st, k, [])
  | fuel+1, batch :: rest, st, k =>
    let t : Trial := ⟨mk_order req opt st.safe batch, batch, α k⟩
    match α k with
    | .passed =>
      let r := isolateSpecList α req opt fuel rest (extendSafe batch st) (k+1)
      (r.1, r.2.1, t :: r.2.2)
    | _ =>
      match batch with
      | [p] =>
        let r := isolateSpecList α req opt fuel rest (markFailed p st) (k+1)
        (r.1, r.2.1, t :: r.2.2)
      | _ =>
        let r := isolateSpecList α req opt fuel
          (chunksOf (get_batch_size batch.length) batch ++ rest) st (k+1)
        (r.1, r.2.1, t :: r.2.2)

/-- Modelled from the spec: `isolate(baseline, batch, ledger)` as described
in section 4.2, for refinement comparison against `run_batch`. -/
def isolateSpec (α : Nat → Outcome) (req opt : List String)
    (fuel : Nat) (batch : List String) (st : St) (k : Nat) :
    St × Nat × List Trial :=
  isolateSpecList α req opt fuel [batch] st k

/-! ## The oracle's wait loop (`wait_and_check_crash`, section 8)

Time is modelled in hundredths of a second; `alive j` is the result of the
`j`-th `get_game_pid()` poll. -/

/-- Python `time.sleep(0.1 if TURBO_MODE else 0.25)` in hundredths. -/
def pollStep (turbo : Bool) : Nat := if turbo then 10 else 25

/-- The startup grace loop: `for _ in range(30): if get_game_pid(): break;
time.sleep(0.1)`.  Returns the next poll index and the elapsed time when the
game appeared, or `none` when all polls failed (launch treated as crash). -/
def graceLoop (alive : Nat → Bool) : Nat → Nat → Nat → Option (Nat × Nat)
  | 0, _, _ => none
  | n+1, i, e => if alive i then some (i+1, e) else graceLoop alive n (i+1) (e+10)

/-- The main wait loop: `while time.time() - start < WAIT_SECONDS`, polling
liveness and sleeping `pollStep` per tick; a dead poll classifies the trial
crashed (`true`), reaching the deadline classifies it passed (`false`). -/
def waitMain (alive : Nat → Bool) (turbo : Bool) (W i e : Nat) : Bool :=
  if e < W then
    if alive i then waitMain alive turbo W (i+1) (e + pollStep turbo) else true
  else false
  termination_by W - e
  decreasing_by
    have hp : 0 < pollStep turbo := by unfold pollStep; split <;> omega
    omega

/-- `wait_and_check_crash()`: returns `true` when the trial is classified a
crash and `false` when it is classified passed.  `start` is taken before the
grace loop, so grace sleeps count toward the deadline. -/
def wait_and_check_crash (alive : Nat → Bool) (turbo : Bool) (waitSeconds : Nat) : Bool :=
  match graceLoop alive 30 0 0 with
  | none => true
  | some (i, e) => waitMain alive turbo (waitSeconds * 100) i e

/-! ## Plugin list parsing (`parse_plugin_list`, section 5) -/

/-- Python `raw.split(",")` on a character list: split at every comma,
keeping empty pieces. -/
def splitComma : List Char → List (List Char)
  | [] => [[]]
  | c :: rest =>
    if c = ',' then [] :: splitComma rest
    else
      match splitComma rest with
      | [] => [[c]]
      | piece :: more => (c :: piece) :: more

/-- `parse_plugin_list(raw)`:
`[p.strip() for p in raw.split(",") if p.strip()]`. -/
def parse_plugin_list (raw : String) : List String :=
  (((splitComma raw.data).map stripChars).filter (fun p => p ≠ [])).map String.mk

/-- The hardcoded fallback for `REQUIRED_PLUGINS`. -/
def REQUIRED_DEFAULT : List String :=
  ["Oblivion.esm", "DLCBattlehornCastle.esp", "DLCFrostcrag.esp", "DLCHorseArmor.esp",
   "DLCMehrunesRazor.esp", "DLCOrrery.esp", "DLCShiveringIsles.esp", "DLCSpellTomes.esp",
   "DLCThievesDen.esp", "DLCVileLair.esp", "Knights.esp", "AltarESPMain.esp", "AltarDeluxe.esp"]

/-- The hardcoded fallback for `OPTIONAL_PATCHES`. -/
def OPTIONAL_DEFAULT : List String :=
  ["Unofficial Oblivion Remastered Patch.esp",
   "Unofficial Oblivion Remastered Patch - Deluxe.esp"]

/-- Python `parse_plugin_list(raw) or default` (an empty parse is falsy). -/
def pluginListOrDefault (raw : String) (dflt : List String) : List String :=
  match parse_plugin_list raw with
  | [] => dflt
  | l => l

/-! ## Turbo batch mode (section 12 of the source)

`turbo_batch_mode` runs the same batch / sub-batch / singleton loops with
guarded appends, plus: immediately after any singleton is classified Failed
it attempts one mega batch over every remaining unclassified candidate; a
passed mega batch commits them all and returns early.  After the loop (or
before the early return) the operator may ask for a re-test of each failed
plugin individually (`uR`). -/

/-- Result of the re-verification pass over the `failed` list.  `obs` records,
after each iteration, the pair (current `safe` list, the `failed` list as it
is observable at that moment - the Python list object is not rebuilt until
`failed[:] = refailed` runs after the loop, so its second component is the
original list throughout the pass). -/
structure RetestRes where
  safe : List String
  refailed : List String
  k : Nat
  tr : List Trial
  obs : List (List String × List String)
  deriving DecidableEq, Repr

/-- Load order written for one re-test:
`ordered = REQUIRED + OPTIONAL; ordered += [p for p in safe_in_backup_order
if p not in ordered]; ordered.append(plugin)` where `safe_in_backup_order =
[p for p in backup_plugins if p in safe]`. -/
def retest_order (req opt backup safe : List String) (plugin : String) : List String :=
  dedupKeyedTurbo ((req ++ opt) ++
    ((backup.filter (fun p => p ∈ safe)).filter (fun p => p ∉ req ++ opt)) ++ [plugin])

/-- The re-test loop body: each failed plugin is retried alone against the
final safe baseline; a passed re-test appends it to `safe` (the `failed`
list itself is only rebuilt after the loop); any other outcome (crash, write
or launch failure, pause followed by Resume) re-fails it. -/
def retestGo (α : Nat → Outcome) (req opt backup orig : List String) :
    List String → List String → List String → Nat → RetestRes
  | [], safe, refailed, k => ⟨safe, refailed, k, [], []⟩
  | p :: rest, safe, refailed, k =>
    let t : Trial := ⟨retest_order req opt backup safe p, [p], α k⟩
    match α k with
    | .passed =>
      let r := retestGo α req opt backup orig rest (safe ++ [p]) refailed (k+1)
      ⟨r.safe, r.refailed, r.k, t :: r.tr, (safe ++ [p], orig) :: r.obs⟩
    | _ =>
      let r := retestGo α req opt backup orig rest safe (refailed ++ [p]) (k+1)
      ⟨r.safe, r.refailed, r.k, t :: r.tr, (safe, orig) :: r.obs⟩

/-- The post-processing shared by the mega-batch early return and the normal
end of the turbo loop: when `failed` is non-empty the operator is offered the
re-test pass (`uR` is the answer); then `(safe, failed)` is returned. -/
def turboPost (α : Nat → Outcome) (uR : Bool) (req opt backup : List String)
    (st : St) (k : Nat) : St × Nat × List Trial :=
  if st.failed ≠ [] ∧ uR then
    let r := retestGo α req opt backup st.failed st.failed st.safe [] k
    ({ safe := r.safe, tested := st.tested, failed := r.refailed }, r.k, r.tr)
  else (st, k, [])

/-- Python `turbo_remaining = [p for p in remaining if p not in failed and
p not in safe]` (also the filter run on `remaining` after each crashed
sub-batch's singleton loop). -/
def turboRemaining (remaining : List String) (st : St) : List String :=
  remaining.filter (fun q => q ∉ st.failed ∧ q ∉ st.safe)

/-- Result of the turbo singleton loop: `early` is the `return safe, failed`
taken when a mega batch passes (carrying the final ledger after the optional
re-test pass); `go` falls through to the rest of the sub-batch loop. -/
inductive SRes where
  | early (st : St) (k : Nat) (tr : List Trial)
  | go (st : St) (k : Nat) (tr : List Trial)
  deriving DecidableEq, Repr

/-- Prepend one recorded trial to a singleton-loop result. -/
def SRes.push (r : SRes) (t : Trial) : SRes :=
  match r with
  | .early st k tr => .early st k (t :: tr)
  | .go st k tr => .go st k (t :: tr)

/-- The turbo singleton loop (`for plugin in sub`).  Write and launch
failures `continue`; a pause followed by Resume sets `one_crash = True`.
After a failed singleton, `turbo_remaining = [p for p in remaining if p not
in failed and p not in safe]`; when non-empty, one mega batch over it is
attempted (write/launch failure or a pause `continue`s the loop like a
crashed mega batch; a passed mega batch commits everything and returns). -/
def turboSingles (α : Nat → Outcome) (uR : Bool) (req opt backup remaining : List String) :
    List String → St → Nat → SRes
  | [], st, k => .go st k []
  | p :: rest, st, k =>
    let t : Trial := ⟨mk_orderT req opt st.safe [p], [p], α k⟩
    match α k with
    | .writeFail => (turboSingles α uR req opt backup remaining rest st (k+1)).push t
    | .launchFail => (turboSingles α uR req opt backup remaining rest st (k+1)).push t
    | .passed => (turboSingles α uR req opt backup remaining rest (markSafe1 p st) (k+1)).push t
    | .crashed =>
      let st1 := markFailed p st
      let trem := turboRemaining remaining st1
      if trem = [] then (turboSingles α uR req opt backup remaining rest st1 (k+1)).push t
      else
        let tm : Trial := ⟨mk_orderT req opt st1.safe trem, trem, α (k+1)⟩
        match α (k+1) with
        | .passed =>
          let r := turboPost α uR req opt backup (markSafeAll trem st1) (k+2)
          .early r.1 r.2.1 (t :: tm :: r.2.2)
        | _ => ((turboSingles α uR req opt backup remaining rest st1 (k+2)).push tm).push t
    | .pausedResume =>
      let st1 := markFailed p st
      let trem := turboRemaining remaining st1
      if trem = [] then (turboSingles α uR req opt backup remaining rest st1 (k+1)).push t
      else
        let tm : Trial := ⟨mk_orderT req opt st1.safe trem, trem, α (k+1)⟩
        match α (k+1) with
        | .passed =>
          let r := turboPost α uR req opt backup (markSafeAll trem st1) (k+2)
          .early r.1 r.2.1 (t :: tm :: r.2.2)
        | _ => ((turboSingles α uR req opt backup remaining rest st1 (k+2)).push tm).push t

/-- Result of the turbo sub-batch loop: an early return propagated from a
passed mega batch, or fall-through carrying the updated `remaining`. -/
inductive BRes where
  | early (st : St) (k : Nat) (tr : List Trial)
  | go (st : St) (rem : List String) (k : Nat) (tr : List Trial)
  deriving DecidableEq, Repr

/-- Prepend one recorded trial to a sub-batch-loop result. -/
def BRes.push (r : BRes) (t : Trial) : BRes :=
  match r with
  | .early st k tr => .early st k (t :: tr)
  | .go st rem k tr => .go st rem k (t :: tr)

/-- Prepend a list of recorded trials to a sub-batch-loop result. -/
def BRes.pushAll (r : BRes) (ts : List Trial) : BRes :=
  match r with
  | .early st k tr => .early st k (ts ++ tr)
  | .go st rem k tr => .go st rem k (ts ++ tr)

/-- The turbo sub-batch loop.  Write and launch failures `continue` with the
next sub-batch; a passed sub-batch is committed with guarded appends and
`remaining` is filtered on `safe`; a crashed (or paused-then-resumed)
sub-batch is handed to the singleton loop, after which `remaining` is
filtered on `failed` and `safe`. -/
def turboSubs (α : Nat → Outcome) (uR : Bool) (req opt backup : List String) :
    List (List String) → List String → St → Nat → BRes
  | [], remaining, st, k => .go st remaining k []
  | sub :: subs, remaining, st, k =>
    let t : Trial := ⟨mk_orderT req opt st.safe sub, sub, α k⟩
    match α k with
    | .writeFail => (turboSubs α uR req opt backup subs remaining st (k+1)).push t
    | .launchFail => (turboSubs α uR req opt backup subs remaining st (k+1)).push t
    | .passed =>
      let st1 := markSafeAll sub st
      let rem1 := remaining.filter (fun q => q ∉ st1.safe)
      (turboSubs α uR req opt backup subs rem1 st1 (k+1)).push t
    | .crashed =>
      match turboSingles α uR req opt backup remaining sub st (k+1) with
      | .early st2 k2 tr2 => .early st2 k2 (t :: tr2)
      | .go st1 k1 tr1 =>
        let rem1 := turboRemaining remaining st1
        ((turboSubs α uR req opt backup subs rem1 st1 k1).pushAll tr1).push t
    | .pausedResume =>
      match turboSingles α uR req opt backup remaining sub st (k+1) with
      | .early st2 k2 tr2 => .early st2 k2 (t :: tr2)
      | .go st1 k1 tr1 =>
        let rem1 := turboRemaining remaining st1
        ((turboSubs α uR req opt backup subs rem1 st1 k1).pushAll tr1).push t

/-- The turbo `while remaining:` loop, bounded by `fuel` (each classified
candidate strictly shrinks `remaining`, so any `fuel ≥ |remaining|` is
enough when the oracle only passes or crashes); `none` means the bound was
exhausted.  A write or launch failure at the batch level `break`s to the
post-processing; a pause retries the iteration; a passed batch is committed
whole; a crashed batch runs the sub-batch loop. -/
def turboLoop (α : Nat → Outcome) (uR : Bool) (req opt backup : List String)
    (batchSize : Nat) : Nat → List String → St → Nat → Option (St × Nat × List Trial)
  | 0, remaining, st, k =>
    if remaining = [] then some (turboPost α uR req opt backup st k) else none
  | fuel+1, remaining, st, k =>
    if remaining = [] then some (turboPost α uR req opt backup st k)
    else
        let batch := remaining.take batchSize
        let t : Trial := ⟨mk_orderT req opt st.safe batch, batch, α k⟩
        match α k with
        | .writeFail =>
          let r := turboPost α uR req opt backup st (k+1)
          some (r.1, r.2.1, t :: r.2.2)
        | .launchFail =>
          let r := turboPost α uR req opt backup st (k+1)
          some (r.1, r.2.1, t :: r.2.2)
        | .pausedResume =>
          (turboLoop α uR req opt backup batchSize fuel remaining st (k+1)).map
            (fun r => (r.1, r.2.1, t :: r.2.2))
        | .passed =>
          let st1 := markSafeAll batch st
          let rem1 := remaining.filter (fun q => q ∉ st1.safe)
          (turboLoop α uR req opt backup batchSize fuel rem1 st1 (k+1)).map
            (fun r => (r.1, r.2.1, t :: r.2.2))
        | .crashed =>
          match turboSubs α uR req opt backup
              (chunksOf (get_batch_size batch.length) batch) remaining st (k+1) with
          | .early st2 k2 tr2 => some (st2, k2, t :: tr2)
          | .go st1 rem1 k1 tr1 =>
            (turboLoop α uR req opt backup batchSize fuel rem1 st1 k1).map
              (fun r => (r.1, r.2.1, (t :: tr1) ++ r.2.2))

/-- `turbo_batch_mode(to_test, patch_plugins, safe, ...)`: seed every
required and optional plugin into `safe` and `tested` (with guarded
appends), then run the turbo loop over `to_test + patch_plugins`. -/
def turbo_batch_mode (α : Nat → Outcome) (uR : Bool) (req opt backup : List String)
    (batchSize fuel : Nat) (to_test patch safe0 : List String) :
    Option (St × Nat × List Trial) :=
  turboLoop α uR req opt backup batchSize fuel (to_test ++ patch)
    (markSafeAll (req ++ opt) { safe := safe0, tested := [], failed := [] }) 0

/-! ## Shared fixtures and helper lemmas -/

/-- An oracle whose every trial crashes. -/
def alwaysCrash : Nat → Outcome := fun _ => .crashed

/-- An oracle whose every trial passes. -/
def alwaysPass : Nat → Outcome := fun _ => .passed

/-- The empty ledger (the state of `isolate_esps` when testing starts). -/
def emptySt : St := ⟨[], [], []⟩

/-- A 20-candidate batch (batch size 20 gives sub-batches of 5 by the step
function, and a crashed sub-batch of 5 would give chunks of 2 under the
spec's recursion). -/
def batchTwenty : List String :=
  ["a","b","c","d","e","f","g","h","i","j","k","l","m","n","o","p","q","r","s","t"]

theorem markFailed_safe (p : String) (st : St) : (markFailed p st).safe = st.safe := rfl

theorem markSafe1_failed (p : String) (st : St) : (markSafe1 p st).failed = st.failed := rfl

/-! ## C7: a passed batch commits whole with exactly one trial -/

/-- C7: for every batch, if the trial of baseline ++ batch passes then
`run_batch` appends the whole batch to Safe and Tested in its original
order and uses exactly one trial, regardless of the batch length; in
particular an always-passing oracle isolates any batch in a single trial. -/
theorem C7_theorem (α : Nat → Outcome) (req opt : List String) (fuel : Nat)
    (batch : List String) (st : St) (k : Nat) (h : α k = Outcome.passed) :
    run_batch α req opt fuel batch st k =
      (extendSafe batch st, k+1,
       [⟨mk_order req opt st.safe batch, batch, Outcome.passed⟩]) := by
  cases fuel <;> simp [run_batch, h]

/-- Witness for C7 at a concrete input. -/
theorem C7_witness :
    alwaysPass 0 = Outcome.passed ∧
    run_batch alwaysPass [] [] 3 ["a","b"] emptySt 0 =
      (extendSafe ["a","b"] emptySt, 1,
       [⟨mk_order [] [] [] ["a","b"], ["a","b"], Outcome.passed⟩]) :=
  ⟨rfl, C7_theorem alwaysPass [] [] 3 ["a","b"] emptySt 0 rfl⟩

/-! ## C3: launch failure abandons the partition instead of classifying it -/

/-- C3 counterexample: when the launch fails for the trial of the batch
`["a"]`, the candidate `a` is not classified Crashed and isolation does not
continue - `run_batch` returns with the ledger untouched, so `a` is left
unclassified (Tested stays empty), contradicting the claim. -/
theorem C3_counterexample :
    (run_batch (fun _ => Outcome.launchFail) [] [] 5 ["a"] emptySt 0).1 = emptySt ∧
    (run_batch (fun _ => Outcome.launchFail) [] [] 5 ["a"] emptySt 0).2.2.map Trial.outc =
      [Outcome.launchFail] := by
  decide

/-- C3 amended: a launch failure leaves the trial unclassified rather than
classifying it Crashed: at the batch level `run_batch` returns at once with
the ledger untouched (the whole batch stays unclassified); at the sub-batch
level the loop `break`s, ending `run_batch` and abandoning the current and
all later sub-batches of that batch; at the singleton level only the
singleton loop `break`s, abandoning the current and all later singletons of
that sub-batch, and the sub-batch loop then continues with the next
sub-batch of the same batch (fourth conjunct: a crashed multi-element
sub-batch whose first singleton trial launch-fails leaves the ledger
untouched and the remaining sub-batches are still processed). -/
theorem C3_theorem :
    (∀ α req opt fuel batch st k, α k = Outcome.launchFail →
      run_batch α req opt fuel batch st k =
        (st, k+1, [⟨mk_order req opt st.safe batch, batch, Outcome.launchFail⟩])) ∧
    (∀ α req opt sub subs st k, α k = Outcome.launchFail →
      runSubs α req opt (sub :: subs) st k =
        (st, k+1, [⟨mk_order req opt st.safe sub, sub, Outcome.launchFail⟩])) ∧
    (∀ α req opt p rest st k, α k = Outcome.launchFail →
      runSingles α req opt (p :: rest) st k =
        (st, k+1, [⟨mk_order req opt st.safe [p], [p], Outcome.launchFail⟩])) ∧
    (∀ α req opt p q more rest st k,
      α k = Outcome.crashed → α (k+1) = Outcome.launchFail →
      runSubs α req opt ((p :: q :: more) :: rest) st k =
        (let r := runSubs α req opt rest st (k+2);
         (r.1, r.2.1,
          ⟨mk_order req opt st.safe (p :: q :: more), p :: q :: more,
            Outcome.crashed⟩ ::
          ⟨mk_order req opt st.safe [p], [p], Outcome.launchFail⟩ :: r.2.2))) := by
  refine ⟨fun α req opt fuel batch st k h => ?_,
    fun α req opt sub subs st k h => ?_, fun α req opt p rest st k h => ?_,
    fun α req opt p q more rest st k h1 h2 => ?_⟩
  · cases fuel <;> simp [run_batch, h]
  · simp [runSubs, h]
  · simp [runSingles, h]
  · simp [runSubs, runSingles, h1, h2]

/-- The oracle of the C3 continuation scenario: the sub-batch trial (attempt
0) crashes, the first singleton trial (attempt 1) launch-fails, and every
later trial passes. -/
def c3contOracle : Nat → Outcome :=
  fun k => if k = 0 then Outcome.crashed
           else if k = 1 then Outcome.launchFail else Outcome.passed

/-- Witness for C3's amended theorem at concrete inputs; in the continuation
conjunct the sub-batch `["c"]` of the same batch is still trialled after the
launch failure during the singles of `["a","b"]`. -/
theorem C3_witness :
    (fun _ => Outcome.launchFail) 0 = Outcome.launchFail ∧
    run_batch (fun _ => Outcome.launchFail) [] [] 5 ["a","b"] emptySt 0 =
      (emptySt, 1, [⟨mk_order [] [] [] ["a","b"], ["a","b"], Outcome.launchFail⟩]) ∧
    runSubs (fun _ => Outcome.launchFail) [] [] [["a"],["b"]] emptySt 0 =
      (emptySt, 1, [⟨mk_order [] [] [] ["a"], ["a"], Outcome.launchFail⟩]) ∧
    runSingles (fun _ => Outcome.launchFail) [] [] ["a","b"] emptySt 0 =
      (emptySt, 1, [⟨mk_order [] [] [] ["a"], ["a"], Outcome.launchFail⟩]) ∧
    c3contOracle 0 = Outcome.crashed ∧
    c3contOracle 1 = Outcome.launchFail ∧
    runSubs c3contOracle [] [] [["a","b"],["c"]] emptySt 0 =
      (let r := runSubs c3contOracle [] [] [["c"]] emptySt 2;
       (r.1, r.2.1,
        ⟨mk_order [] [] [] ["a","b"], ["a","b"], Outcome.crashed⟩ ::
        ⟨mk_order [] [] [] ["a"], ["a"], Outcome.launchFail⟩ :: r.2.2)) :=
  ⟨rfl,
   C3_theorem.1 (fun _ => Outcome.launchFail) [] [] 5 ["a","b"] emptySt 0 rfl,
   C3_theorem.2.1 (fun _ => Outcome.launchFail) [] [] ["a"] [["b"]] emptySt 0 rfl,
   C3_theorem.2.2.1 (fun _ => Outcome.launchFail) [] [] "a" ["b"] emptySt 0 rfl,
   rfl, rfl,
   C3_theorem.2.2.2 c3contOracle [] [] "a" "b" [] [["c"]] emptySt 0 rfl rfl⟩

/-! ## C2: a pause during a sub-batch or singleton trial is treated as a crash -/

/-- The oracle of the C2 scenario: the batch and sub-batch trials crash, the
first singleton trial (attempt 2, the trial of `a` alone) is paused and the
operator chooses Resume, and every later trial crashes. -/
def c2oracle : Nat → Outcome := fun k => if k = 2 then .pausedResume else .crashed

/-- C2: the code violates pause atomicity.  On the batch `[a,b,c,d,e]`
(sub-batches of 2), the singleton trial of `a` is paused and resumed, yet
`run_batch` classifies `a` as Failed without any completed trial: the code
sets `one_crash = True` after printing `[RESUMED] Retrying plugin…` instead
of retrying, contradicting both the claim and the code's own message. -/
theorem C2_theorem :
    (run_batch c2oracle [] [] 5 ["a","b","c","d","e"] emptySt 0).2.2.map
      (fun t => (t.part, t.outc)) =
      [(["a","b","c","d","e"], .crashed), (["a","b"], .crashed), (["a"], .pausedResume),
       (["b"], .crashed), (["c","d"], .crashed), (["c"], .crashed), (["d"], .crashed),
       (["e"], .crashed)] ∧
    "a" ∈ (run_batch c2oracle [] [] 5 ["a","b","c","d","e"] emptySt 0).1.failed := by
  decide

/-! ## C1: a crashed sub-batch is tested element-by-element, not re-partitioned -/

theorem foldl_markFailed_safe :
    ∀ (c : List String) (st : St), (c.foldl (fun s p => markFailed p s) st).safe = st.safe
  | [], _ => rfl
  | p :: rest, st => by
    simpa [markFailed_safe] using foldl_markFailed_safe rest (markFailed p st)

/-- Trials produced by `run_batch` for one crashed sub-batch when every
attempt crashes: a length-1 sub-batch is its own singleton trial; a longer
sub-batch is trialed once and then each member is trialed alone. -/
def crashChunkTrials (req opt safe : List String) (c : List String) : List Trial :=
  match c with
  | [] => [⟨mk_order req opt safe [], [], Outcome.crashed⟩]
  | [p] => [⟨mk_order req opt safe [p], [p], Outcome.crashed⟩]
  | c => ⟨mk_order req opt safe c, c, Outcome.crashed⟩ ::
      c.map (fun p => ⟨mk_order req opt safe [p], [p], Outcome.crashed⟩)

theorem runSingles_k (α : Nat → Outcome) (req opt : List String) :
    ∀ (sub : List String) (st : St) (k : Nat),
    (runSingles α req opt sub st k).2.1 = k + (runSingles α req opt sub st k).2.2.length := by
  intro sub
  induction sub with
  | nil => intro st k; simp [runSingles]
  | cons p rest ih =>
    intro st k
    cases hk : α k <;> simp [runSingles, hk, ih] <;> omega

theorem runSingles_crash_st (α : Nat → Outcome) (req opt : List String)
    (hc : ∀ i, α i = Outcome.crashed) :
    ∀ (sub : List String) (st : St) (k : Nat),
    (runSingles α req opt sub st k).1 = sub.foldl (fun s p => markFailed p s) st := by
  intro sub
  induction sub with
  | nil => intro st k; simp [runSingles]
  | cons p rest ih => intro st k; simp [runSingles, hc k, ih]

theorem runSingles_crash_tr (α : Nat → Outcome) (req opt : List String)
    (hc : ∀ i, α i = Outcome.crashed) :
    ∀ (sub : List String) (st : St) (k : Nat),
    (runSingles α req opt sub st k).2.2 =
      sub.map (fun p => ⟨mk_order req opt st.safe [p], [p], Outcome.crashed⟩) := by
  intro sub
  induction sub with
  | nil => intro st k; simp [runSingles]
  | cons p rest ih =>
    intro st k
    simp [runSingles, hc k, ih, markFailed_safe]

theorem runSubs_k (α : Nat → Outcome) (req opt : List String) :
    ∀ (subs : List (List String)) (st : St) (k : Nat),
    (runSubs α req opt subs st k).2.1 = k + (runSubs α req opt subs st k).2.2.length := by
  intro subs
  induction subs with
  | nil => intro st k; simp [runSubs]
  | cons c subs ih =>
    intro st k
    cases hk : α k
    case passed => simp [runSubs, hk, ih]; omega
    case launchFail => simp [runSubs, hk]
    case writeFail => simp [runSubs, hk, ih]; omega
    case crashed =>
      match c with
      | [] => simp [runSubs, hk, runSingles, ih]; omega
      | [p] => simp [runSubs, hk, ih]; omega
      | p :: q :: cs =>
        simp [runSubs, hk, ih, runSingles_k α req opt (p :: q :: cs) st (k+1)]
        omega
    case pausedResume =>
      match c with
      | [] => simp [runSubs, hk, runSingles, ih]; omega
      | [p] => simp [runSubs, hk, ih]; omega
      | p :: q :: cs =>
        simp [runSubs, hk, ih, runSingles_k α req opt (p :: q :: cs) st (k+1)]
        omega

theorem runSubs_crash_st (α : Nat → Outcome) (req opt : List String)
    (hc : ∀ i, α i = Outcome.crashed) :
    ∀ (subs : List (List String)) (st : St) (k : Nat),
    (runSubs α req opt subs st k).1 =
      subs.flatten.foldl (fun s p => markFailed p s) st := by
  intro subs
  induction subs with
  | nil => intro st k; simp [runSubs]
  | cons c subs ih =>
    intro st k
    match c with
    | [] => simp [runSubs, hc k, runSingles, ih]
    | [p] => simp [runSubs, hc k, ih]
    | p :: q :: cs =>
      simp [runSubs, hc k, ih, runSingles_crash_st α req opt hc, List.foldl_append]

theorem runSubs_crash_tr (α : Nat → Outcome) (req opt : List String)
    (hc : ∀ i, α i = Outcome.crashed) :
    ∀ (subs : List (List String)) (st : St) (k : Nat),
    (runSubs α req opt subs st k).2.2 =
      subs.flatMap (crashChunkTrials req opt st.safe) := by
  intro subs
  induction subs with
  | nil => intro st k; simp [runSubs]
  | cons c subs ih =>
    intro st k
    match c with
    | [] => simp [runSubs, hc k, runSingles, ih, crashChunkTrials]
    | [p] => simp [runSubs, hc k, ih, markFailed_safe, crashChunkTrials]
    | p :: q :: cs =>
      simp [runSubs, hc k, ih, runSingles_crash_st α req opt hc,
        runSingles_crash_tr α req opt hc, foldl_markFailed_safe, markFailed_safe,
        crashChunkTrials]

theorem get_batch_size_pos (n : Nat) : 1 ≤ get_batch_size n := by
  unfold get_batch_size
  repeat' split
  all_goals omega

theorem chunksOfAux_join (n : Nat) (hn : 1 ≤ n) :
    ∀ (fuel : Nat) (l : List String), l.length ≤ fuel → (chunksOfAux n fuel l).flatten = l := by
  intro fuel
  induction fuel with
  | zero =>
    intro l hl
    have : l = [] := List.eq_nil_of_length_eq_zero (by omega)
    subst this; simp [chunksOfAux]
  | succ fuel ih =>
    intro l hl
    match l with
    | [] => simp [chunksOfAux]
    | x :: xs =>
      have hdrop : (List.drop n (x :: xs)).length ≤ fuel := by
        simp only [List.length_drop, List.length_cons]
        simp only [List.length_cons] at hl
        omega
      simp only [chunksOfAux, List.flatten_cons, ih (List.drop n (x :: xs)) hdrop]
      exact List.take_append_drop n (x :: xs)

theorem chunksOf_join (n : Nat) (hn : 1 ≤ n) (l : List String) :
    (chunksOf n l).flatten = l :=
  chunksOfAux_join n hn l.length l Nat.le.refl

/-- C1 counterexample: on a batch of 20 with an always-crashing oracle, the
code trials the batch, then each sub-batch of 5, then the members of each
crashed sub-batch one by one - the third trial is the singleton `["a"]`,
not the chunk `["a","b"]` the claimed recursive re-partitioning
(`isolateSpec`, transcribed from the spec) would produce, and the two trial
sequences differ. -/
theorem C1_counterexample :
    (run_batch alwaysCrash [] [] 5 batchTwenty emptySt 0).2.2.map Trial.part =
      [["a","b","c","d","e","f","g","h","i","j","k","l","m","n","o","p","q","r","s","t"],
       ["a","b","c","d","e"], ["a"], ["b"], ["c"], ["d"], ["e"],
       ["f","g","h","i","j"], ["f"], ["g"], ["h"], ["i"], ["j"],
       ["k","l","m","n","o"], ["k"], ["l"], ["m"], ["n"], ["o"],
       ["p","q","r","s","t"], ["p"], ["q"], ["r"], ["s"], ["t"]] ∧
    (run_batch alwaysCrash [] [] 5 batchTwenty emptySt 0).2.2.map Trial.part ≠
      (isolateSpec alwaysCrash [] [] 40 batchTwenty emptySt 0).2.2.map Trial.part := by
  decide

/-- C1 amended: for every batch whose trial crashes (here: an oracle whose
every attempt crashes), the engine splits the batch into consecutive chunks
of `subSize = stepFunction(len(batch))` and trials each chunk with the
baseline re-derived from the current Safe list; a crashed chunk of length 1
is classified Failed by its own trial, and a crashed chunk of length ≥ 2 is
then tested element-by-element with one singleton trial per member - the
step function is not re-applied recursively to crashed chunks. -/
theorem C1_theorem (α : Nat → Outcome) (req opt : List String) (fuel : Nat)
    (batch : List String) (st : St) (k : Nat) (hc : ∀ i, α i = Outcome.crashed) :
    (run_batch α req opt fuel batch st k).1 =
        batch.foldl (fun s p => markFailed p s) st ∧
    (run_batch α req opt fuel batch st k).2.2 =
        ⟨mk_order req opt st.safe batch, batch, Outcome.crashed⟩ ::
          (chunksOf (get_batch_size batch.length) batch).flatMap
            (crashChunkTrials req opt st.safe) ∧
    (run_batch α req opt fuel batch st k).2.1 =
        k + 1 + ((chunksOf (get_batch_size batch.length) batch).flatMap
            (crashChunkTrials req opt st.safe)).length := by
  have hjoin := chunksOf_join (get_batch_size batch.length)
    (get_batch_size_pos batch.length) batch
  have hsubs_st := runSubs_crash_st α req opt hc
    (chunksOf (get_batch_size batch.length) batch) st (k+1)
  have hsubs_tr := runSubs_crash_tr α req opt hc
    (chunksOf (get_batch_size batch.length) batch) st (k+1)
  have hsubs_k := runSubs_k α req opt
    (chunksOf (get_batch_size batch.length) batch) st (k+1)
  rw [hjoin] at hsubs_st
  rw [hsubs_tr] at hsubs_k
  cases fuel <;>
    exact ⟨by simp [run_batch, hc k, hsubs_st],
      by simp [run_batch, hc k, hsubs_tr],
      by simp [run_batch, hc k, hsubs_k]; try omega⟩

/-- Witness for C1's amended theorem at a concrete crashed batch of 5. -/
theorem C1_witness :
    (∀ i, alwaysCrash i = Outcome.crashed) ∧
    ((run_batch alwaysCrash [] [] 2 ["v","w","x","y","z"] emptySt 0).1 =
        ["v","w","x","y","z"].foldl (fun s p => markFailed p s) emptySt ∧
     (run_batch alwaysCrash [] [] 2 ["v","w","x","y","z"] emptySt 0).2.2 =
        ⟨mk_order [] [] emptySt.safe ["v","w","x","y","z"], ["v","w","x","y","z"],
            Outcome.crashed⟩ ::
          (chunksOf (get_batch_size (["v","w","x","y","z"] : List String).length)
            ["v","w","x","y","z"]).flatMap (crashChunkTrials [] [] emptySt.safe) ∧
     (run_batch alwaysCrash [] [] 2 ["v","w","x","y","z"] emptySt 0).2.1 =
        0 + 1 + ((chunksOf (get_batch_size (["v","w","x","y","z"] : List String).length)
            ["v","w","x","y","z"]).flatMap (crashChunkTrials [] [] emptySt.safe)).length) :=
  ⟨fun _ => rfl, C1_theorem alwaysCrash [] [] 2 ["v","w","x","y","z"] emptySt 0 (fun _ => rfl)⟩

/-! ## C8: the oracle wait loop -/

theorem graceLoop_none (alive : Nat → Bool) :
    ∀ (n i e : Nat), (∀ j, j < n → alive (i+j) = false) → graceLoop alive n i e = none := by
  intro n
  induction n with
  | zero => intro i e _; rfl
  | succ n ih =>
    intro i e h
    have h0 : alive i = false := by simpa using h 0 (Nat.succ_pos n)
    simp only [graceLoop, h0, Bool.false_eq_true, if_false]
    exact ih (i+1) (e+10) (fun j hj => by
      have := h (j+1) (by omega)
      simpa [Nat.add_assoc, Nat.add_comm 1 j] using this)

theorem pollStep_pos (t : Bool) : 0 < pollStep t := by
  unfold pollStep; split <;> omega

theorem waitMain_live_aux (alive : Nat → Bool) (t : Bool) (W : Nat)
    (h : ∀ j, alive j = true) :
    ∀ (d i e : Nat), W - e ≤ d → waitMain alive t W i e = false := by
  intro d
  induction d with
  | zero =>
    intro i e he
    unfold waitMain
    rw [if_neg (by omega)]
  | succ d ih =>
    intro i e he
    unfold waitMain
    by_cases hew : e < W
    · rw [if_pos hew, h i, if_pos rfl]
      exact ih (i+1) (e + pollStep t) (by have := pollStep_pos t; omega)
    · rw [if_neg hew]

theorem waitMain_live (alive : Nat → Bool) (t : Bool) (W i e : Nat)
    (h : ∀ j, alive j = true) : waitMain alive t W i e = false :=
  waitMain_live_aux alive t W h (W - e) i e Nat.le.refl

theorem waitMain_dead (alive : Nat → Bool) (t : Bool) (W : Nat) :
    ∀ (m i e : Nat), (∀ j, j < m → alive (i+j) = true) → alive (i+m) = false →
    e + m * pollStep t < W → waitMain alive t W i e = true := by
  intro m
  induction m with
  | zero =>
    intro i e _ hdead hlt
    have hd2 : alive i = false := by simpa using hdead
    unfold waitMain
    rw [if_pos (by omega)]
    simp [hd2]
  | succ m ih =>
    intro i e hlive hdead hlt
    have hp := pollStep_pos t
    have hmul : (m + 1) * pollStep t = m * pollStep t + pollStep t := Nat.succ_mul m (pollStep t)
    have h0 : alive i = true := by simpa using hlive 0 (Nat.succ_pos m)
    unfold waitMain
    rw [if_pos (by omega), h0, if_pos rfl]
    refine ih (i+1) (e + pollStep t) (fun j hj => ?_) ?_ (by omega)
    · have := hlive (j+1) (by omega)
      simpa [Nat.add_assoc, Nat.add_comm 1 j] using this
    · have : i + 1 + m = i + (m + 1) := by omega
      rw [this]; exact hdead

/-- C8: the oracle waits for the target process with a grace window of
exactly 30 polls at 0.1 s, classifying the trial Crashed when the process
never appears; when the process stays alive at every poll the deadline is
reached and the trial is classified Passed; and when the process appears and
then disappears at a poll that happens before the deadline, the trial is
classified Crashed. -/
theorem C8_theorem :
    (∀ (alive : Nat → Bool) (t : Bool) (W : Nat),
      (∀ j, j < 30 → alive j = false) → wait_and_check_crash alive t W = true) ∧
    (∀ (alive : Nat → Bool) (t : Bool) (W : Nat),
      (∀ j, alive j = true) → wait_and_check_crash alive t W = false) ∧
    (∀ (alive : Nat → Bool) (t : Bool) (W m : Nat),
      (∀ j, j ≤ m → alive j = true) → alive (m+1) = false →
      m * pollStep t < W * 100 → wait_and_check_crash alive t W = true) := by
  refine ⟨fun alive t W h => ?_, fun alive t W h => ?_, fun alive t W m hl hd hm => ?_⟩
  · unfold wait_and_check_crash
    rw [graceLoop_none alive 30 0 0 (fun j hj => by simpa using h j hj)]
  · unfold wait_and_check_crash
    have h30 : graceLoop alive 30 0 0 = some (1, 0) := by
      have h0 := h 0
      simp [graceLoop, h0]
    rw [h30]
    exact waitMain_live alive t (W * 100) 1 0 h
  · unfold wait_and_check_crash
    have h30 : graceLoop alive 30 0 0 = some (1, 0) := by
      have h0 := hl 0 (Nat.zero_le m)
      simp [graceLoop, h0]
    rw [h30]
    refine waitMain_dead alive t (W * 100) m 1 0 (fun j hj => ?_) ?_ (by omega)
    · have := hl (j+1) (by omega)
      simpa [Nat.add_comm 1 j] using this
    · have : 1 + m = m + 1 := by omega
      rw [this]; exact hd

/-- Witness for C8 at concrete liveness traces. -/
theorem C8_witness :
    wait_and_check_crash (fun _ => false) false 11 = true ∧
    wait_and_check_crash (fun _ => true) false 11 = false ∧
    wait_and_check_crash (fun j => decide (j = 0)) false 11 = true :=
  ⟨C8_theorem.1 (fun _ => false) false 11 (fun _ _ => rfl),
   C8_theorem.2.1 (fun _ => true) false 11 (fun _ => rfl),
   C8_theorem.2.2 (fun j => decide (j = 0)) false 11 0
     (fun j hj => by rw [Nat.le_zero.mp hj]; rfl) (by rfl) (by decide)⟩

/-! ## C10: plugin list parsing and default substitution -/

theorem splitComma_ne_nil : ∀ cs : List Char, splitComma cs ≠ []
  | [] => by simp [splitComma]
  | c :: rest => by
    rw [splitComma]
    split
    · simp
    · cases splitComma rest <;> simp

theorem splitComma_mem_chars :
    ∀ (cs piece : List Char), piece ∈ splitComma cs →
    ∀ c ∈ piece, c ∈ cs ∧ c ≠ ',' := by
  intro cs
  induction cs with
  | nil =>
    intro piece hp c hc
    simp [splitComma] at hp
    subst hp
    simp at hc
  | cons c0 rest ih =>
    intro piece hp c hc
    by_cases h0 : c0 = ','
    · subst h0
      rw [splitComma, if_pos rfl] at hp
      rcases List.mem_cons.mp hp with rfl | hp
      · simp at hc
      · have := ih piece hp c hc
        exact ⟨List.mem_cons_of_mem _ this.1, this.2⟩
    · obtain ⟨piece0, more, hsp⟩ : ∃ p m, splitComma rest = p :: m := by
        cases h : splitComma rest with
        | nil => exact absurd h (splitComma_ne_nil rest)
        | cons a b => exact ⟨a, b, rfl⟩
      rw [splitComma, if_neg h0, hsp] at hp
      rcases List.mem_cons.mp hp with rfl | hp2
      · rcases List.mem_cons.mp hc with rfl | hc2
        · exact ⟨List.mem_cons_self _ _, h0⟩
        · have := ih piece0 (hsp ▸ List.mem_cons_self piece0 more) c hc2
          exact ⟨List.mem_cons_of_mem _ this.1, this.2⟩
      · have := ih piece (hsp ▸ List.mem_cons_of_mem piece0 hp2) c hc
        exact ⟨List.mem_cons_of_mem _ this.1, this.2⟩

theorem stripChars_nil_of_all (l : List Char)
    (h : ∀ c ∈ l, c.isWhitespace = true) : stripChars l = [] := by
  unfold stripChars
  rw [List.dropWhile_eq_nil_iff.mpr h]
  rfl

theorem stripChars_eq_rdrop (l : List Char) :
    stripChars l = (l.dropWhile Char.isWhitespace).rdropWhile Char.isWhitespace := rfl

theorem stripChars_idem (l : List Char) : stripChars (stripChars l) = stripChars l := by
  rw [stripChars_eq_rdrop, stripChars_eq_rdrop]
  have hdrop :
      (List.rdropWhile Char.isWhitespace
          (List.dropWhile Char.isWhitespace l)).dropWhile Char.isWhitespace =
        List.rdropWhile Char.isWhitespace (List.dropWhile Char.isWhitespace l) := by
    obtain ⟨t, ht⟩ :=
      List.rdropWhile_prefix Char.isWhitespace (l := List.dropWhile Char.isWhitespace l)
    cases hr : List.rdropWhile Char.isWhitespace (List.dropWhile Char.isWhitespace l) with
    | nil => simp
    | cons a as =>
      rw [hr] at ht
      have hne : List.dropWhile Char.isWhitespace l ≠ [] := by
        rw [← ht]; simp
      have hhead := List.head_dropWhile_not Char.isWhitespace l hne
      have h1 : (List.dropWhile Char.isWhitespace l).head? = some a := by
        rw [← ht]; rfl
      rw [List.head?_eq_head hne] at h1
      have ha : (List.dropWhile Char.isWhitespace l).head hne = a := Option.some.inj h1
      rw [ha] at hhead
      rw [List.dropWhile_cons, hhead]
      simp
  rw [hdrop, List.rdropWhile_idempotent]

/-- C10: when the configured plugin value consists only of whitespace and
commas, `parse_plugin_list` returns the empty list and the hardcoded default
is substituted (so an empty required or optional list can never be
configured); otherwise every parsed entry is a nonempty, whitespace-stripped
piece of the comma-separated value. -/
theorem C10_theorem :
    (∀ raw : String, (∀ c ∈ raw.data, c.isWhitespace = true ∨ c = ',') →
      parse_plugin_list raw = []) ∧
    (∀ (raw : String) (dflt : List String), parse_plugin_list raw = [] →
      pluginListOrDefault raw dflt = dflt) ∧
    (∀ raw : String, pluginListOrDefault raw REQUIRED_DEFAULT ≠ [] ∧
      pluginListOrDefault raw OPTIONAL_DEFAULT ≠ []) ∧
    (∀ (raw : String) (s : String), s ∈ parse_plugin_list raw →
      s ≠ "" ∧ stripChars s.data = s.data) := by
  refine ⟨fun raw h => ?_, fun raw dflt h => ?_, fun raw => ?_, fun raw s hs => ?_⟩
  · unfold parse_plugin_list
    have hnil : ((splitComma raw.data).map stripChars).filter (fun p => p ≠ []) = [] := by
      rw [List.filter_eq_nil_iff]
      intro x hx
      simp only [List.mem_map] at hx
      obtain ⟨piece, hpiece, rfl⟩ := hx
      have hall : ∀ c ∈ piece, c.isWhitespace = true := by
        intro c hc
        have hcc := splitComma_mem_chars raw.data piece hpiece c hc
        rcases h c hcc.1 with hw | hcomma
        · exact hw
        · exact absurd hcomma hcc.2
      simp [stripChars_nil_of_all piece hall]
    rw [hnil]
    rfl
  · unfold pluginListOrDefault
    rw [h]
  · constructor <;> (unfold pluginListOrDefault; split)
    · decide
    · assumption
    · decide
    · assumption
  · unfold parse_plugin_list at hs
    simp only [List.mem_map, List.mem_filter] at hs
    obtain ⟨x, ⟨⟨piece, hpc, rfl⟩, hxne⟩, rfl⟩ := hs
    refine ⟨fun h => ?_, ?_⟩
    · have : stripChars piece = [] := congrArg String.data h
      simp [this] at hxne
    · simpa using stripChars_idem piece

/-- Witness for C10 at concrete configuration strings. -/
theorem C10_witness :
    parse_plugin_list (String.mk [' ', ',', ',', ' ']) = [] ∧
    pluginListOrDefault (String.mk [' ', ',', ',', ' ']) REQUIRED_DEFAULT = REQUIRED_DEFAULT ∧
    (String.mk ['a'] ≠ "" ∧ stripChars (String.mk ['a']).data = (String.mk ['a']).data) :=
  ⟨C10_theorem.1 (String.mk [' ', ',', ',', ' ']) (by decide),
   C10_theorem.2.1 (String.mk [' ', ',', ',', ' ']) REQUIRED_DEFAULT
     (C10_theorem.1 (String.mk [' ', ',', ',', ' ']) (by decide)),
   C10_theorem.2.2.2 (String.mk [' ', 'a', ',', ' ']) (String.mk ['a']) (by decide)⟩

/-! ## C5: re-verification migrates Failed ids, with deferred removal -/

/-- The failed ids whose re-test (at consecutive oracle indices) passes. -/
def selPass (α : Nat → Outcome) : Nat → List String → List String
  | _, [] => []
  | k, p :: rest =>
    if α k = Outcome.passed then p :: selPass α (k+1) rest else selPass α (k+1) rest

/-- The failed ids whose re-test does not pass (crash, write or launch
failure, or pause): they are re-failed. -/
def selFail (α : Nat → Outcome) : Nat → List String → List String
  | _, [] => []
  | k, p :: rest =>
    if α k = Outcome.passed then selFail α (k+1) rest else p :: selFail α (k+1) rest

theorem retestGo_safe (α : Nat → Outcome) (req opt backup orig : List String) :
    ∀ (todo safe refailed : List String) (k : Nat),
    (retestGo α req opt backup orig todo safe refailed k).safe =
      safe ++ selPass α k todo := by
  intro todo
  induction todo with
  | nil => intro safe refailed k; simp [retestGo, selPass]
  | cons p rest ih =>
    intro safe refailed k
    cases hk : α k <;> simp [retestGo, hk, ih, selPass]

theorem retestGo_refailed (α : Nat → Outcome) (req opt backup orig : List String) :
    ∀ (todo safe refailed : List String) (k : Nat),
    (retestGo α req opt backup orig todo safe refailed k).refailed =
      refailed ++ selFail α k todo := by
  intro todo
  induction todo with
  | nil => intro safe refailed k; simp [retestGo, selFail]
  | cons p rest ih =>
    intro safe refailed k
    cases hk : α k <;> simp [retestGo, hk, ih, selFail]

theorem retestGo_obs (α : Nat → Outcome) (req opt backup orig : List String) :
    ∀ (todo safe refailed : List String) (k : Nat) (i : Nat) (hi : i < todo.length),
    α (k+i) = Outcome.passed →
    todo.get ⟨i, hi⟩ ∈
        ((retestGo α req opt backup orig todo safe refailed k).obs.getD i ([], [])).1 ∧
    ((retestGo α req opt backup orig todo safe refailed k).obs.getD i ([], [])).2 = orig := by
  intro todo
  induction todo with
  | nil => intro safe refailed k i hi; simp at hi
  | cons p rest ih =>
    intro safe refailed k i hi hp
    match i with
    | 0 =>
      have hk : α k = Outcome.passed := by simpa using hp
      simp [retestGo, hk]
    | j+1 =>
      have hp2 : α ((k+1)+j) = Outcome.passed := by
        have : (k+1)+j = k + (j+1) := by omega
        rw [this]; exact hp
      have hj : j < rest.length := by simpa using hi
      cases hk : α k <;>
        simpa [retestGo, hk] using ih _ _ (k+1) j hj hp2

theorem selPass_sublist (α : Nat → Outcome) :
    ∀ (k : Nat) (l : List String), List.Sublist (selPass α k l) l := by
  intro k l
  induction l generalizing k with
  | nil => simp [selPass]
  | cons p rest ih =>
    rw [selPass]
    split
    · exact List.Sublist.cons₂ p (ih (k+1))
    · exact List.Sublist.cons p (ih (k+1))

theorem sel_perm (α : Nat → Outcome) :
    ∀ (k : Nat) (l : List String), (selPass α k l ++ selFail α k l).Perm l := by
  intro k l
  induction l generalizing k with
  | nil => simp [selPass, selFail]
  | cons p rest ih =>
    rw [selPass, selFail]
    split
    · simpa using (ih (k+1)).cons p
    · exact List.perm_middle.trans ((ih (k+1)).cons p)

theorem get_mem_selPass (α : Nat → Outcome) :
    ∀ (l : List String) (k i : Nat) (hi : i < l.length), α (k+i) = Outcome.passed →
    l.get ⟨i, hi⟩ ∈ selPass α k l := by
  intro l
  induction l with
  | nil => intro k i hi; simp at hi
  | cons p rest ih =>
    intro k i hi hp
    match i with
    | 0 =>
      have hk : α k = Outcome.passed := by simpa using hp
      simp [selPass, hk]
    | j+1 =>
      have hp2 : α ((k+1)+j) = Outcome.passed := by
        have : (k+1)+j = k + (j+1) := by omega
        rw [this]; exact hp
      have hj : j < rest.length := by simpa using hi
      have hmem := ih (k+1) j hj hp2
      rw [selPass]
      split
      · exact List.mem_cons_of_mem p hmem
      · exact hmem

/-- The oracle of the C5 scenario: the re-test of the first failed id passes
and every later trial crashes. -/
def c5oracle : Nat → Outcome := fun k => if k = 0 then .passed else .crashed

/-- C5 counterexample: re-verifying `failed = [a, b]` where `a` passes alone:
at the observable point right after `a`'s passing re-test (the pass is still
running - `b` is yet to be re-tested), `a` has been appended to Safe while
the Failed list is still the original `[a, b]` (the code only rebuilds it by
`failed[:] = refailed` after the whole loop), so `a` is present in both Safe
and Failed simultaneously, contradicting the claim. -/
theorem C5_counterexample :
    "a" ∈ ((retestGo c5oracle [] [] [] ["a","b"] ["a","b"] [] [] 0).obs.getD 0 ([], [])).1 ∧
    "a" ∈ ((retestGo c5oracle [] [] [] ["a","b"] ["a","b"] [] [] 0).obs.getD 0 ([], [])).2 ∧
    (retestGo c5oracle [] [] [] ["a","b"] ["a","b"] [] [] 0).obs.length = 2 ∧
    (retestGo c5oracle [] [] [] ["a","b"] ["a","b"] [] [] 0).refailed = ["b"] := by
  decide

/-- C5 amended: during the re-verification post-pass, a Failed id whose
re-test passes migrates from Failed to Safe exactly once (its count in the
final Safe grows by exactly one and it is absent from the rebuilt Failed),
but the removal from Failed is deferred: the id is appended to Safe at its
passing trial while the observable Failed collection remains the original
list until the whole post-pass completes, so the id is present in both Safe
and Failed until the loop ends. -/
theorem C5_theorem (α : Nat → Outcome) (req opt backup : List String)
    (failed0 safe0 : List String) (k : Nat) (hnd : failed0.Nodup)
    (i : Nat) (hi : i < failed0.length) (hp : α (k+i) = Outcome.passed) :
    (retestGo α req opt backup failed0 failed0 safe0 [] k).safe =
      safe0 ++ selPass α k failed0 ∧
    (retestGo α req opt backup failed0 failed0 safe0 [] k).refailed =
      selFail α k failed0 ∧
    List.count (failed0.get ⟨i, hi⟩)
        (retestGo α req opt backup failed0 failed0 safe0 [] k).safe =
      List.count (failed0.get ⟨i, hi⟩) safe0 + 1 ∧
    failed0.get ⟨i, hi⟩ ∉
      (retestGo α req opt backup failed0 failed0 safe0 [] k).refailed ∧
    failed0.get ⟨i, hi⟩ ∈
      ((retestGo α req opt backup failed0 failed0 safe0 [] k).obs.getD i ([], [])).1 ∧
    ((retestGo α req opt backup failed0 failed0 safe0 [] k).obs.getD i ([], [])).2 =
      failed0 := by
  have hsafe := retestGo_safe α req opt backup failed0 failed0 safe0 [] k
  have href := retestGo_refailed α req opt backup failed0 failed0 safe0 [] k
  have hobs := retestGo_obs α req opt backup failed0 failed0 safe0 [] k i hi hp
  have hmem := get_mem_selPass α failed0 k i hi hp
  have hcount1 : List.count (failed0.get ⟨i, hi⟩) failed0 = 1 :=
    List.count_eq_one_of_mem hnd (failed0.get_mem i hi)
  have hperm := (sel_perm α k failed0).count_eq (failed0.get ⟨i, hi⟩)
  rw [List.count_append, hcount1] at hperm
  have hcp : List.count (failed0.get ⟨i, hi⟩) (selPass α k failed0) = 1 := by
    have hle : List.count (failed0.get ⟨i, hi⟩) (selPass α k failed0) ≤ 1 := by
      calc List.count (failed0.get ⟨i, hi⟩) (selPass α k failed0)
          ≤ List.count (failed0.get ⟨i, hi⟩) failed0 :=
            (selPass_sublist α k failed0).count_le _
        _ = 1 := hcount1
    have hge : 1 ≤ List.count (failed0.get ⟨i, hi⟩) (selPass α k failed0) :=
      List.count_pos_iff.mpr hmem
    omega
  have hcf : List.count (failed0.get ⟨i, hi⟩) (selFail α k failed0) = 0 := by omega
  refine ⟨hsafe, by simpa using href, ?_, ?_, hobs.1, hobs.2⟩
  · rw [hsafe, List.count_append, hcp]
  · rw [href]
    simp only [List.nil_append]
    exact List.count_eq_zero.mp hcf

/-- Witness for C5's amended theorem at a concrete re-verification pass. -/
theorem C5_witness :
    (["a","b"] : List String).Nodup ∧
    ((retestGo c5oracle [] [] [] ["a","b"] ["a","b"] [] [] 0).safe =
        [] ++ selPass c5oracle 0 ["a","b"] ∧
     (retestGo c5oracle [] [] [] ["a","b"] ["a","b"] [] [] 0).refailed =
        selFail c5oracle 0 ["a","b"] ∧
     List.count ((["a","b"] : List String).get ⟨0, by decide⟩)
        (retestGo c5oracle [] [] [] ["a","b"] ["a","b"] [] [] 0).safe =
       List.count ((["a","b"] : List String).get ⟨0, by decide⟩) ([] : List String) + 1 ∧
     (["a","b"] : List String).get ⟨0, by decide⟩ ∉
       (retestGo c5oracle [] [] [] ["a","b"] ["a","b"] [] [] 0).refailed ∧
     (["a","b"] : List String).get ⟨0, by decide⟩ ∈
       ((retestGo c5oracle [] [] [] ["a","b"] ["a","b"] [] [] 0).obs.getD 0 ([], [])).1 ∧
     ((retestGo c5oracle [] [] [] ["a","b"] ["a","b"] [] [] 0).obs.getD 0 ([], [])).2 =
       ["a","b"]) :=
  ⟨by decide, C5_theorem c5oracle [] [] [] ["a","b"] [] 0 (by decide) 0 (by decide) (by decide)⟩

/-! ## C4: the mega batch after each failed singleton in turbo mode -/

theorem guardAppend_mem_self (p : String) (l : List String) : p ∈ guardAppend p l := by
  unfold guardAppend
  split
  · assumption
  · simp

theorem guardAppend_mem_of_mem (q p : String) (l : List String) (h : q ∈ l) :
    q ∈ guardAppend p l := by
  unfold guardAppend
  split
  · assumption
  · exact List.mem_append_left _ h

theorem markSafeAll_safe_of_mem :
    ∀ (ps : List String) (st : St) (q : String), q ∈ st.safe →
    q ∈ (markSafeAll ps st).safe := by
  intro ps
  induction ps with
  | nil => intro st q h; exact h
  | cons p rest ih =>
    intro st q h
    exact ih (markSafe1 p st) q (guardAppend_mem_of_mem q p st.safe h)

theorem markSafeAll_tested_of_mem :
    ∀ (ps : List String) (st : St) (q : String), q ∈ st.tested →
    q ∈ (markSafeAll ps st).tested := by
  intro ps
  induction ps with
  | nil => intro st q h; exact h
  | cons p rest ih =>
    intro st q h
    exact ih (markSafe1 p st) q (guardAppend_mem_of_mem q p st.tested h)

theorem markSafeAll_safe_self :
    ∀ (ps : List String) (st : St) (q : String), q ∈ ps →
    q ∈ (markSafeAll ps st).safe := by
  intro ps
  induction ps with
  | nil => intro st q h; simp at h
  | cons p rest ih =>
    intro st q h
    rcases List.mem_cons.mp h with rfl | h2
    · exact markSafeAll_safe_of_mem rest (markSafe1 q st) q (guardAppend_mem_self q st.safe)
    · exact ih (markSafe1 p st) q h2

theorem markSafeAll_tested_self :
    ∀ (ps : List String) (st : St) (q : String), q ∈ ps →
    q ∈ (markSafeAll ps st).tested := by
  intro ps
  induction ps with
  | nil => intro st q h; simp at h
  | cons p rest ih =>
    intro st q h
    rcases List.mem_cons.mp h with rfl | h2
    · exact markSafeAll_tested_of_mem rest (markSafe1 q st) q (guardAppend_mem_self q st.tested)
    · exact ih (markSafe1 p st) q h2

/-- The oracle of the C4 pass scenario: batch, sub-batch and singleton trials
crash, the mega batch (attempt 3) passes. -/
def c4oracle : Nat → Outcome := fun k => if k = 3 then .passed else .crashed

/-- C4: immediately after any singleton is confirmed Failed with unclassified
candidates left, exactly one mega trial over all of them is attempted; a
passed mega trial commits them all to Safe and returns at once (no trial of
the remaining singletons of the sub-batch, and the whole turbo loop returns
that result); a crashed mega trial is discarded and the singleton loop
resumes where it left off.  The last two conjuncts run the whole of
`turbo_batch_mode` on candidates `[a,b,c]`: when the mega batch passes, the
run stops after exactly 4 trials with `b, c` Safe; when it crashes, singleton
isolation continues to the end. -/
theorem C4_theorem :
    (∀ (α : Nat → Outcome) (req opt backup remaining : List String) (p : String)
        (rest : List String) (st : St) (k : Nat),
      α k = Outcome.crashed → α (k+1) = Outcome.passed →
      turboRemaining remaining (markFailed p st) ≠ [] →
      (turboSingles α false req opt backup remaining (p :: rest) st k =
        SRes.early
          (markSafeAll (turboRemaining remaining (markFailed p st)) (markFailed p st))
          (k+2)
          [⟨mk_orderT req opt st.safe [p], [p], Outcome.crashed⟩,
           ⟨mk_orderT req opt (markFailed p st).safe
              (turboRemaining remaining (markFailed p st)),
            turboRemaining remaining (markFailed p st), Outcome.passed⟩] ∧
       ∀ q ∈ turboRemaining remaining (markFailed p st),
         q ∈ (markSafeAll (turboRemaining remaining (markFailed p st))
            (markFailed p st)).safe)) ∧
    (∀ (α : Nat → Outcome) (uR : Bool) (req opt backup remaining : List String)
        (p : String) (rest : List String) (st : St) (k : Nat),
      α k = Outcome.crashed → α (k+1) = Outcome.crashed →
      turboRemaining remaining (markFailed p st) ≠ [] →
      turboSingles α uR req opt backup remaining (p :: rest) st k =
        ((turboSingles α uR req opt backup remaining rest (markFailed p st) (k+2)).push
          ⟨mk_orderT req opt (markFailed p st).safe
              (turboRemaining remaining (markFailed p st)),
            turboRemaining remaining (markFailed p st), Outcome.crashed⟩).push
          ⟨mk_orderT req opt st.safe [p], [p], Outcome.crashed⟩) ∧
    turbo_batch_mode c4oracle false [] [] [] 10 5 ["a","b","c"] [] [] =
      some (⟨["b","c"], ["a","b","c"], ["a"]⟩, 4,
        [⟨["a","b","c"], ["a","b","c"], Outcome.crashed⟩, ⟨["a"], ["a"], Outcome.crashed⟩,
         ⟨["a"], ["a"], Outcome.crashed⟩, ⟨["b","c"], ["b","c"], Outcome.passed⟩]) ∧
    turbo_batch_mode alwaysCrash false [] [] [] 10 5 ["a","b","c"] [] [] =
      some (⟨[], ["a","b","c"], ["a","b","c"]⟩, 9,
        [⟨["a","b","c"], ["a","b","c"], Outcome.crashed⟩, ⟨["a"], ["a"], Outcome.crashed⟩,
         ⟨["a"], ["a"], Outcome.crashed⟩, ⟨["b","c"], ["b","c"], Outcome.crashed⟩,
         ⟨["b"], ["b"], Outcome.crashed⟩, ⟨["b"], ["b"], Outcome.crashed⟩,
         ⟨["c"], ["c"], Outcome.crashed⟩, ⟨["c"], ["c"], Outcome.crashed⟩,
         ⟨["c"], ["c"], Outcome.crashed⟩]) := by
  refine ⟨fun α req opt backup remaining p rest st k hk hk1 htrem => ⟨?_, ?_⟩,
    fun α uR req opt backup remaining p rest st k hk hk1 htrem => ?_, ?_, ?_⟩
  · simp [turboSingles, hk, hk1, htrem, turboPost]
  · intro q hq
    exact markSafeAll_safe_self _ _ q hq
  · simp [turboSingles, hk, hk1, htrem]
  · decide
  · decide

/-- Witness for C4's general conjuncts at a concrete failed singleton with
one remaining candidate. -/
theorem C4_witness :
    (c4oracle 2 = Outcome.crashed ∧ c4oracle (2+1) = Outcome.passed ∧
     turboRemaining ["a","b"] (markFailed "a" emptySt) ≠ []) ∧
    (turboSingles c4oracle false [] [] [] ["a","b"] ["a"] emptySt 2 =
        SRes.early (markSafeAll (turboRemaining ["a","b"] (markFailed "a" emptySt))
            (markFailed "a" emptySt)) (2+2)
          [⟨mk_orderT [] [] emptySt.safe ["a"], ["a"], Outcome.crashed⟩,
           ⟨mk_orderT [] [] (markFailed "a" emptySt).safe
              (turboRemaining ["a","b"] (markFailed "a" emptySt)),
            turboRemaining ["a","b"] (markFailed "a" emptySt), Outcome.passed⟩] ∧
     ∀ q ∈ turboRemaining ["a","b"] (markFailed "a" emptySt),
       q ∈ (markSafeAll (turboRemaining ["a","b"] (markFailed "a" emptySt))
          (markFailed "a" emptySt)).safe) ∧
    turboSingles alwaysCrash false [] [] [] ["a","b"] ["a"] emptySt 2 =
      ((turboSingles alwaysCrash false [] [] [] ["a","b"] [] (markFailed "a" emptySt)
          (2+2)).push
        ⟨mk_orderT [] [] (markFailed "a" emptySt).safe
            (turboRemaining ["a","b"] (markFailed "a" emptySt)),
          turboRemaining ["a","b"] (markFailed "a" emptySt), Outcome.crashed⟩).push
        ⟨mk_orderT [] [] emptySt.safe ["a"], ["a"], Outcome.crashed⟩ :=
  ⟨⟨rfl, rfl, by decide⟩,
   C4_theorem.1 c4oracle [] [] [] ["a","b"] "a" [] emptySt 2 rfl rfl (by decide),
   C4_theorem.2.1 alwaysCrash false [] [] [] ["a","b"] "a" [] emptySt 2 rfl rfl (by decide)⟩

/-! ## C9: required and optional plugins are seeded into Safe and Tested -/

/-- Pointwise growth of the Safe and Tested collections. -/
def StMono (a b : St) : Prop :=
  (∀ q, q ∈ a.safe → q ∈ b.safe) ∧ (∀ q, q ∈ a.tested → q ∈ b.tested)

theorem stMono_refl (a : St) : StMono a a := ⟨fun _ h => h, fun _ h => h⟩

theorem stMono_trans {a b c : St} (h1 : StMono a b) (h2 : StMono b c) : StMono a c :=
  ⟨fun q h => h2.1 q (h1.1 q h), fun q h => h2.2 q (h1.2 q h)⟩

theorem stMono_markSafe1 (p : String) (st : St) : StMono st (markSafe1 p st) :=
  ⟨fun q h => guardAppend_mem_of_mem q p st.safe h,
   fun q h => guardAppend_mem_of_mem q p st.tested h⟩

theorem stMono_markFailed (p : String) (st : St) : StMono st (markFailed p st) :=
  ⟨fun _ h => h, fun q h => guardAppend_mem_of_mem q p st.tested h⟩

theorem stMono_markSafeAll :
    ∀ (ps : List String) (st : St), StMono st (markSafeAll ps st) := by
  intro ps
  induction ps with
  | nil => intro st; exact stMono_refl st
  | cons p rest ih =>
    intro st
    exact stMono_trans (stMono_markSafe1 p st) (ih (markSafe1 p st))

/-- The re-test pass only appends to Safe and leaves Tested unchanged. -/
theorem stMono_turboPost (α : Nat → Outcome) (uR : Bool) (req opt backup : List String)
    (st : St) (k : Nat) : StMono st (turboPost α uR req opt backup st k).1 := by
  unfold turboPost
  split
  · refine ⟨fun q h => ?_, fun q h => h⟩
    simp only [retestGo_safe]
    exact List.mem_append_left _ h
  · exact stMono_refl st

/-- The state carried by a singleton-loop result. -/
def SRes.st : SRes → St
  | .early st _ _ => st
  | .go st _ _ => st

theorem sres_push_st (r : SRes) (t : Trial) : (r.push t).st = r.st := by
  cases r <;> rfl

/-- The state carried by a sub-batch-loop result. -/
def BRes.st : BRes → St
  | .early st _ _ => st
  | .go st _ _ _ => st

theorem bres_push_st (r : BRes) (t : Trial) : (r.push t).st = r.st := by
  cases r <;> rfl

theorem bres_pushAll_st (r : BRes) (ts : List Trial) : (r.pushAll ts).st = r.st := by
  cases r <;> rfl

theorem turboSingles_mono (α : Nat → Outcome) (uR : Bool)
    (req opt backup remaining : List String) :
    ∀ (sub : List String) (st : St) (k : Nat),
    StMono st (turboSingles α uR req opt backup remaining sub st k).st := by
  intro sub
  induction sub with
  | nil => intro st k; exact stMono_refl st
  | cons p rest ih =>
    intro st k
    cases hk : α k <;> simp only [turboSingles, hk, sres_push_st]
    case passed => exact stMono_trans (stMono_markSafe1 p st) (ih (markSafe1 p st) (k+1))
    case writeFail => exact ih st (k+1)
    case launchFail => exact ih st (k+1)
    case crashed =>
      split
      · rw [sres_push_st]
        exact stMono_trans (stMono_markFailed p st) (ih (markFailed p st) (k+1))
      · cases hk1 : α (k+1)
        case passed =>
          simp only [SRes.st]
          exact stMono_trans (stMono_markFailed p st)
            (stMono_trans (stMono_markSafeAll _ (markFailed p st))
              (stMono_turboPost α uR req opt backup _ (k+2)))
        all_goals
          rw [sres_push_st, sres_push_st]
          exact stMono_trans (stMono_markFailed p st) (ih (markFailed p st) (k+2))
    case pausedResume =>
      split
      · rw [sres_push_st]
        exact stMono_trans (stMono_markFailed p st) (ih (markFailed p st) (k+1))
      · cases hk1 : α (k+1)
        case passed =>
          simp only [SRes.st]
          exact stMono_trans (stMono_markFailed p st)
            (stMono_trans (stMono_markSafeAll _ (markFailed p st))
              (stMono_turboPost α uR req opt backup _ (k+2)))
        all_goals
          rw [sres_push_st, sres_push_st]
          exact stMono_trans (stMono_markFailed p st) (ih (markFailed p st) (k+2))

theorem turboSubs_mono (α : Nat → Outcome) (uR : Bool) (req opt backup : List String) :
    ∀ (subs : List (List String)) (remaining : List String) (st : St) (k : Nat),
    StMono st (turboSubs α uR req opt backup subs remaining st k).st := by
  intro subs
  induction subs with
  | nil => intro remaining st k; exact stMono_refl st
  | cons sub subs ih =>
    intro remaining st k
    cases hk : α k <;> simp only [turboSubs, hk, bres_push_st]
    case writeFail => exact ih remaining st (k+1)
    case launchFail => exact ih remaining st (k+1)
    case passed =>
      exact stMono_trans (stMono_markSafeAll sub st) (ih _ _ (k+1))
    case crashed =>
      cases hs : turboSingles α uR req opt backup remaining sub st (k+1) with
      | early st2 k2 tr2 =>
        have := turboSingles_mono α uR req opt backup remaining sub st (k+1)
        rw [hs] at this
        exact this
      | go st1 k1 tr1 =>
        have h1 := turboSingles_mono α uR req opt backup remaining sub st (k+1)
        rw [hs] at h1
        simp only [bres_pushAll_st, bres_push_st]
        exact stMono_trans h1 (ih _ _ k1)
    case pausedResume =>
      cases hs : turboSingles α uR req opt backup remaining sub st (k+1) with
      | early st2 k2 tr2 =>
        have := turboSingles_mono α uR req opt backup remaining sub st (k+1)
        rw [hs] at this
        exact this
      | go st1 k1 tr1 =>
        have h1 := turboSingles_mono α uR req opt backup remaining sub st (k+1)
        rw [hs] at h1
        simp only [bres_pushAll_st, bres_push_st]
        exact stMono_trans h1 (ih _ _ k1)

theorem turboLoop_mono (α : Nat → Outcome) (uR : Bool) (req opt backup : List String)
    (batchSize : Nat) :
    ∀ (fuel : Nat) (remaining : List String) (st : St) (k : Nat) (S : St) (k2 : Nat)
      (tr : List Trial),
    turboLoop α uR req opt backup batchSize fuel remaining st k = some (S, k2, tr) →
    StMono st S := by
  intro fuel
  induction fuel with
  | zero =>
    intro remaining st k S k2 tr h
    rw [turboLoop] at h
    split at h
    · have := Option.some.inj h
      have hS : (turboPost α uR req opt backup st k).1 = S := congrArg Prod.fst this
      rw [← hS]
      exact stMono_turboPost α uR req opt backup st k
    · simp at h
  | succ fuel ih =>
    intro remaining st k S k2 tr h
    rw [turboLoop] at h
    split at h
    · have := Option.some.inj h
      have hS : (turboPost α uR req opt backup st k).1 = S := congrArg Prod.fst this
      rw [← hS]
      exact stMono_turboPost α uR req opt backup st k
    · cases hk : α k <;> rw [hk] at h <;> simp only [] at h
      case passed =>
        rcases Option.map_eq_some'.mp h with ⟨⟨S1, k3, tr3⟩, hmap, heq⟩
        have hS : S1 = S := congrArg (fun r => r.1) heq
        rw [← hS]
        exact stMono_trans (stMono_markSafeAll _ st) (ih _ _ _ _ _ _ hmap)
      case writeFail =>
        have := Option.some.inj h
        have hS : (turboPost α uR req opt backup st (k+1)).1 = S := congrArg Prod.fst this
        rw [← hS]
        exact stMono_turboPost α uR req opt backup st (k+1)
      case launchFail =>
        have := Option.some.inj h
        have hS : (turboPost α uR req opt backup st (k+1)).1 = S := congrArg Prod.fst this
        rw [← hS]
        exact stMono_turboPost α uR req opt backup st (k+1)
      case pausedResume =>
        rcases Option.map_eq_some'.mp h with ⟨⟨S1, k3, tr3⟩, hmap, heq⟩
        have hS : S1 = S := congrArg (fun r => r.1) heq
        rw [← hS]
        exact ih _ _ _ _ _ _ hmap
      case crashed =>
        cases hs : turboSubs α uR req opt backup
            (chunksOf (get_batch_size (remaining.take batchSize).length)
              (remaining.take batchSize)) remaining st (k+1) with
        | early st2 k3 tr3 =>
          rw [hs] at h
          have := Option.some.inj h
          have hS : st2 = S := congrArg Prod.fst this
          have hmono := turboSubs_mono α uR req opt backup
            (chunksOf (get_batch_size (remaining.take batchSize).length)
              (remaining.take batchSize)) remaining st (k+1)
          rw [hs] at hmono
          rw [← hS]
          exact hmono
        | go st1 rem1 k1 tr1 =>
          rw [hs] at h
          rcases Option.map_eq_some'.mp h with ⟨⟨S1, k3, tr3⟩, hmap, heq⟩
          have hS : S1 = S := congrArg (fun r => r.1) heq
          have hmono := turboSubs_mono α uR req opt backup
            (chunksOf (get_batch_size (remaining.take batchSize).length)
              (remaining.take batchSize)) remaining st (k+1)
          rw [hs] at hmono
          rw [← hS]
          exact stMono_trans hmono (ih _ _ _ _ _ _ hmap)

/-- C9: at the start of turbo mode every required and optional plugin name
is appended (with guards) to both Safe and Tested before any trial runs, and
both collections only grow afterwards, so whatever the oracle does, the
final reported Safe and Tested sets contain every configured required and
optional plugin - even ones absent from the original plugins file that were
never actually tested. -/
theorem C9_theorem (α : Nat → Outcome) (uR : Bool) (req opt backup : List String)
    (batchSize fuel : Nat) (to_test patch safe0 : List String) (S : St) (k2 : Nat)
    (tr : List Trial)
    (h : turbo_batch_mode α uR req opt backup batchSize fuel to_test patch safe0 =
      some (S, k2, tr))
    (p : String) (hp : p ∈ req ∨ p ∈ opt) : p ∈ S.safe ∧ p ∈ S.tested := by
  unfold turbo_batch_mode at h
  have hmono := turboLoop_mono α uR req opt backup batchSize fuel (to_test ++ patch)
    (markSafeAll (req ++ opt) { safe := safe0, tested := [], failed := [] }) 0 S k2 tr h
  have hpmem : p ∈ req ++ opt := by
    rcases hp with h1 | h1
    · exact List.mem_append_left _ h1
    · exact List.mem_append_right _ h1
  exact ⟨hmono.1 p (markSafeAll_safe_self _ _ p hpmem),
    hmono.2 p (markSafeAll_tested_self _ _ p hpmem)⟩

/-- Witness for C9: a required plugin absent from the candidate list ends in
the final Safe and Tested sets. -/
theorem C9_witness :
    turbo_batch_mode alwaysPass false ["r"] ["o"] [] 10 5 ["x"] [] [] =
      some (⟨["r","o","x"], ["r","o","x"], []⟩, 1,
        [⟨["r","o","x"], ["x"], Outcome.passed⟩]) ∧
    ("r" ∈ (⟨["r","o","x"], ["r","o","x"], []⟩ : St).safe ∧
     "r" ∈ (⟨["r","o","x"], ["r","o","x"], []⟩ : St).tested) :=
  ⟨by decide,
   C9_theorem alwaysPass false ["r"] ["o"] [] 10 5 ["x"] [] []
     ⟨["r","o","x"], ["r","o","x"], []⟩ 1 [⟨["r","o","x"], ["x"], Outcome.passed⟩]
     (by decide) "r" (Or.inl (by decide))⟩

/-! ## C6: conservation of the ledger in turbo mode -/

/-- C6 counterexample: with one candidate `a` (which passes) and the
configured required plugin `r`, the completed run has
`|Safe| + |Failed| = |Tested| = 2`, but the initial candidate set has size 1:
the required/optional seeding makes `|Tested|` strictly larger than the
candidate set, contradicting the claimed equality. -/
theorem C6_counterexample :
    turbo_batch_mode alwaysPass false ["r"] [] [] 10 5 ["a"] [] [] =
      some (⟨["r","a"], ["r","a"], []⟩, 1, [⟨["r","a"], ["a"], Outcome.passed⟩]) ∧
    ((⟨["r","a"], ["r","a"], []⟩ : St).safe.length +
      (⟨["r","a"], ["r","a"], []⟩ : St).failed.length =
      (⟨["r","a"], ["r","a"], []⟩ : St).tested.length) ∧
    (⟨["r","a"], ["r","a"], []⟩ : St).tested.length ≠ (["a"] : List String).length := by
  decide

/-- An oracle that only ever passes or crashes: no pause, no write or launch
failure (the "completes normally" side conditions of the claim). -/
def CleanOracle (α : Nat → Outcome) : Prop :=
  ∀ i, α i = Outcome.passed ∨ α i = Outcome.crashed

/-- The ledger invariant: no id occurs twice across Safe ++ Failed, and
Tested is a permutation of Safe ++ Failed. -/
def LedgerInv (st : St) : Prop :=
  (st.safe ++ st.failed).Nodup ∧ st.tested.Perm (st.safe ++ st.failed)

/-- Safe ∪ Failed never loses members. -/
def UnionMono (a b : St) : Prop :=
  ∀ q, q ∈ a.safe ∨ q ∈ a.failed → q ∈ b.safe ∨ q ∈ b.failed

theorem unionMono_refl (a : St) : UnionMono a a := fun _ h => h

theorem unionMono_trans {a b c : St} (h1 : UnionMono a b) (h2 : UnionMono b c) :
    UnionMono a c := fun q h => h2 q (h1 q h)

/-- Everything newly classified or tested comes from `extra`. -/
def ClassUB (a b : St) (extra : List String) : Prop :=
  (∀ q, q ∈ b.safe ∨ q ∈ b.failed → q ∈ a.safe ∨ q ∈ a.failed ∨ q ∈ extra) ∧
  (∀ q, q ∈ b.tested → q ∈ a.tested ∨ q ∈ extra)

theorem classUB_refl (a : St) (extra : List String) : ClassUB a a extra :=
  ⟨fun q h => by rcases h with h | h
                 · exact Or.inl h
                 · exact Or.inr (Or.inl h),
   fun q h => Or.inl h⟩

theorem classUB_trans {a b c : St} {e1 e2 e3 : List String}
    (h1 : ClassUB a b e1) (h2 : ClassUB b c e2)
    (he1 : ∀ q ∈ e1, q ∈ e3) (he2 : ∀ q ∈ e2, q ∈ e3) : ClassUB a c e3 := by
  constructor
  · intro q h
    rcases h2.1 q h with h3 | h3 | h3
    · rcases h1.1 q (Or.inl h3) with h4 | h4 | h4
      · exact Or.inl h4
      · exact Or.inr (Or.inl h4)
      · exact Or.inr (Or.inr (he1 q h4))
    · rcases h1.1 q (Or.inr h3) with h4 | h4 | h4
      · exact Or.inl h4
      · exact Or.inr (Or.inl h4)
      · exact Or.inr (Or.inr (he1 q h4))
    · exact Or.inr (Or.inr (he2 q h3))
  · intro q h
    rcases h2.2 q h with h3 | h3
    · rcases h1.2 q h3 with h4 | h4
      · exact Or.inl h4
      · exact Or.inr (he1 q h4)
    · exact Or.inr (he2 q h3)

theorem guardAppend_mem_inv (q p : String) (l : List String)
    (h : q ∈ guardAppend p l) : q ∈ l ∨ q = p := by
  unfold guardAppend at h
  split at h
  · exact Or.inl h
  · rcases List.mem_append.mp h with h2 | h2
    · exact Or.inl h2
    · exact Or.inr (by simpa using h2)

theorem markSafe1_inv (p : String) (st : St) (hp : p ∉ st.failed)
    (hI : LedgerInv st) : LedgerInv (markSafe1 p st) := by
  obtain ⟨hnd, hperm⟩ := hI
  by_cases hs : p ∈ st.safe
  · have h1 : guardAppend p st.safe = st.safe := by unfold guardAppend; rw [if_pos hs]
    have h2 : guardAppend p st.tested = st.tested := by
      unfold guardAppend
      rw [if_pos (hperm.mem_iff.mpr (List.mem_append_left _ hs))]
    unfold markSafe1
    rw [h1, h2]
    exact ⟨hnd, hperm⟩
  · have hpt : p ∉ st.tested := fun h =>
      (List.mem_append.mp (hperm.mem_iff.mp h)).elim hs hp
    have h1 : guardAppend p st.safe = st.safe ++ [p] := by
      unfold guardAppend; rw [if_neg hs]
    have h2 : guardAppend p st.tested = st.tested ++ [p] := by
      unfold guardAppend; rw [if_neg hpt]
    unfold markSafe1
    rw [h1, h2]
    constructor
    · have : st.safe ++ [p] ++ st.failed = st.safe ++ p :: st.failed := by simp
      rw [this]
      rw [List.nodup_middle]
      exact List.Nodup.cons (fun h => (List.mem_append.mp h).elim hs hp) hnd
    · have hstep : (st.tested ++ [p]).Perm ((st.safe ++ st.failed) ++ [p]) :=
        hperm.append_right [p]
      refine hstep.trans ?_
      have h3 : st.safe ++ [p] ++ st.failed = st.safe ++ p :: st.failed := by simp
      rw [h3]
      refine (List.perm_append_singleton p _).trans ?_
      exact List.perm_middle.symm

theorem markFailed_inv (p : String) (st : St) (hp : p ∉ st.safe)
    (hI : LedgerInv st) : LedgerInv (markFailed p st) := by
  obtain ⟨hnd, hperm⟩ := hI
  by_cases hf : p ∈ st.failed
  · have h1 : guardAppend p st.failed = st.failed := by unfold guardAppend; rw [if_pos hf]
    have h2 : guardAppend p st.tested = st.tested := by
      unfold guardAppend
      rw [if_pos (hperm.mem_iff.mpr (List.mem_append_right _ hf))]
    unfold markFailed
    rw [h1, h2]
    exact ⟨hnd, hperm⟩
  · have hpt : p ∉ st.tested := fun h =>
      (List.mem_append.mp (hperm.mem_iff.mp h)).elim hp hf
    have h1 : guardAppend p st.failed = st.failed ++ [p] := by
      unfold guardAppend; rw [if_neg hf]
    have h2 : guardAppend p st.tested = st.tested ++ [p] := by
      unfold guardAppend; rw [if_neg hpt]
    unfold markFailed
    rw [h1, h2]
    constructor
    · have : st.safe ++ (st.failed ++ [p]) = (st.safe ++ st.failed) ++ [p] := by simp
      rw [this]
      have h4 : ((st.safe ++ st.failed) ++ [p]).Perm (p :: (st.safe ++ st.failed)) :=
        List.perm_append_singleton p _
      rw [h4.nodup_iff]
      exact List.Nodup.cons (fun h => (List.mem_append.mp h).elim hp hf) hnd
    · have hstep : (st.tested ++ [p]).Perm ((st.safe ++ st.failed) ++ [p]) :=
        hperm.append_right [p]
      refine hstep.trans ?_
      have h3 : st.safe ++ (st.failed ++ [p]) = (st.safe ++ st.failed) ++ [p] := by simp
      rw [h3]

theorem markSafe1_failed_eq (p : String) (st : St) : (markSafe1 p st).failed = st.failed := rfl

theorem markSafeAll_failed_eq :
    ∀ (ps : List String) (st : St), (markSafeAll ps st).failed = st.failed := by
  intro ps
  induction ps with
  | nil => intro st; rfl
  | cons p rest ih => intro st; exact ih (markSafe1 p st)

theorem markSafeAll_inv :
    ∀ (ps : List String) (st : St), (∀ p ∈ ps, p ∉ st.failed) → LedgerInv st →
    LedgerInv (markSafeAll ps st) := by
  intro ps
  induction ps with
  | nil => intro st _ hI; exact hI
  | cons p rest ih =>
    intro st hps hI
    refine ih (markSafe1 p st) (fun q hq => ?_) ?_
    · rw [markSafe1_failed_eq]
      exact hps q (List.mem_cons_of_mem p hq)
    · exact markSafe1_inv p st (hps p (List.mem_cons_self p rest)) hI

theorem markSafeAll_UB :
    ∀ (ps : List String) (st : St),
    (∀ q ∈ (markSafeAll ps st).safe, q ∈ st.safe ∨ q ∈ ps) ∧
    (∀ q ∈ (markSafeAll ps st).tested, q ∈ st.tested ∨ q ∈ ps) := by
  intro ps
  induction ps with
  | nil => intro st; exact ⟨fun q h => Or.inl h, fun q h => Or.inl h⟩
  | cons p rest ih =>
    intro st
    constructor
    · intro q h
      rcases (ih (markSafe1 p st)).1 q h with h2 | h2
      · rcases guardAppend_mem_inv q p st.safe h2 with h3 | rfl
        · exact Or.inl h3
        · exact Or.inr (List.mem_cons_self _ _)
      · exact Or.inr (List.mem_cons_of_mem p h2)
    · intro q h
      rcases (ih (markSafe1 p st)).2 q h with h2 | h2
      · rcases guardAppend_mem_inv q p st.tested h2 with h3 | rfl
        · exact Or.inl h3
        · exact Or.inr (List.mem_cons_self _ _)
      · exact Or.inr (List.mem_cons_of_mem p h2)

theorem markFailed_UB (p : String) (st : St) :
    (∀ q ∈ (markFailed p st).failed, q ∈ st.failed ∨ q = p) ∧
    (∀ q ∈ (markFailed p st).tested, q ∈ st.tested ∨ q = p) :=
  ⟨fun q h => guardAppend_mem_inv q p st.failed h,
   fun q h => guardAppend_mem_inv q p st.tested h⟩

/-- The re-test pass preserves the ledger invariant, leaves Tested unchanged,
and preserves Safe ∪ Failed as a set (it only migrates between them). -/
theorem turboPost_inv (α : Nat → Outcome) (uR : Bool) (req opt backup : List String)
    (st : St) (k : Nat) (hI : LedgerInv st) :
    LedgerInv (turboPost α uR req opt backup st k).1 ∧
    (turboPost α uR req opt backup st k).1.tested = st.tested ∧
    (∀ q, (q ∈ (turboPost α uR req opt backup st k).1.safe ∨
           q ∈ (turboPost α uR req opt backup st k).1.failed) ↔
          (q ∈ st.safe ∨ q ∈ st.failed)) := by
  unfold turboPost
  split
  · simp only [retestGo_safe, retestGo_refailed, List.nil_append]
    have hperm : (st.safe ++ (selPass α k st.failed ++ selFail α k st.failed)).Perm
        (st.safe ++ st.failed) := (sel_perm α k st.failed).append_left st.safe
    have hassoc : st.safe ++ selPass α k st.failed ++ selFail α k st.failed =
        st.safe ++ (selPass α k st.failed ++ selFail α k st.failed) := by simp
    obtain ⟨hnd, hp⟩ := hI
    refine ⟨⟨?_, ?_⟩, by trivial, ?_⟩
    · rw [hassoc, hperm.nodup_iff]
      exact hnd
    · rw [hassoc]
      exact hp.trans hperm.symm
    · intro q
      constructor
      · intro h
        rcases h with h | h
        · rcases List.mem_append.mp h with h2 | h2
          · exact Or.inl h2
          · exact Or.inr ((sel_perm α k st.failed).subset (List.mem_append_left _ h2))
        · exact Or.inr ((sel_perm α k st.failed).subset (List.mem_append_right _ h))
      · intro h
        rcases h with h | h
        · exact Or.inl (List.mem_append_left _ h)
        · rcases List.mem_append.mp ((sel_perm α k st.failed).symm.subset h) with h2 | h2
          · exact Or.inl (List.mem_append_right _ h2)
          · exact Or.inr h2
  · exact ⟨hI, rfl, fun q => Iff.rfl⟩

theorem mem_turboRemaining (q : String) (remaining : List String) (st : St) :
    q ∈ turboRemaining remaining st ↔ q ∈ remaining ∧ q ∉ st.failed ∧ q ∉ st.safe := by
  simp [turboRemaining]

theorem sublist_turboRemaining (remaining : List String) (st : St) :
    List.Sublist (turboRemaining remaining st) remaining :=
  List.filter_sublist remaining

theorem sublist_length_lt {l2 : List String} :
    ∀ {l1 : List String}, List.Sublist l1 l2 → ∀ q, q ∈ l2 → q ∉ l1 →
    l1.length < l2.length := by
  intro l1 hs q hq hnq
  rcases Nat.lt_or_ge l1.length l2.length with h | h
  · exact h
  · have heq := hs.eq_of_length (Nat.le_antisymm hs.length_le h)
    rw [heq] at hnq
    exact absurd hq hnq

theorem classUB_markSafe1 (p : String) (st : St) : ClassUB st (markSafe1 p st) [p] := by
  constructor
  · intro q h
    rcases h with h | h
    · rcases guardAppend_mem_inv q p st.safe h with h2 | rfl
      · exact Or.inl h2
      · exact Or.inr (Or.inr (List.mem_singleton_self _))
    · exact Or.inr (Or.inl h)
  · intro q h
    rcases guardAppend_mem_inv q p st.tested h with h2 | rfl
    · exact Or.inl h2
    · exact Or.inr (List.mem_singleton_self _)

theorem classUB_markFailed (p : String) (st : St) : ClassUB st (markFailed p st) [p] := by
  constructor
  · intro q h
    rcases h with h | h
    · exact Or.inl h
    · rcases guardAppend_mem_inv q p st.failed h with h2 | rfl
      · exact Or.inr (Or.inl h2)
      · exact Or.inr (Or.inr (List.mem_singleton_self _))
  · intro q h
    rcases guardAppend_mem_inv q p st.tested h with h2 | rfl
    · exact Or.inl h2
    · exact Or.inr (List.mem_singleton_self _)

theorem classUB_markSafeAll (ps : List String) (st : St) :
    ClassUB st (markSafeAll ps st) ps := by
  constructor
  · intro q h
    rcases h with h | h
    · rcases (markSafeAll_UB ps st).1 q h with h2 | h2
      · exact Or.inl h2
      · exact Or.inr (Or.inr h2)
    · rw [markSafeAll_failed_eq] at h
      exact Or.inr (Or.inl h)
  · intro q h
    exact (markSafeAll_UB ps st).2 q h

theorem unionMono_markSafe1 (p : String) (st : St) : UnionMono st (markSafe1 p st) := by
  intro q h
  rcases h with h | h
  · exact Or.inl (guardAppend_mem_of_mem q p st.safe h)
  · exact Or.inr h

theorem unionMono_markFailed (p : String) (st : St) : UnionMono st (markFailed p st) := by
  intro q h
  rcases h with h | h
  · exact Or.inl h
  · exact Or.inr (guardAppend_mem_of_mem q p st.failed h)

theorem unionMono_markSafeAll (ps : List String) (st : St) :
    UnionMono st (markSafeAll ps st) := by
  intro q h
  rcases h with h | h
  · exact Or.inl ((stMono_markSafeAll ps st).1 q h)
  · rw [markSafeAll_failed_eq]
    exact Or.inr h

theorem unionMono_turboPost (α : Nat → Outcome) (uR : Bool) (req opt backup : List String)
    (st : St) (k : Nat) (hI : LedgerInv st) :
    UnionMono st (turboPost α uR req opt backup st k).1 := by
  intro q h
  exact ((turboPost_inv α uR req opt backup st k hI).2.2 q).mpr h

theorem classUB_turboPost (α : Nat → Outcome) (uR : Bool) (req opt backup : List String)
    (st : St) (k : Nat) (hI : LedgerInv st) (extra : List String) :
    ClassUB st (turboPost α uR req opt backup st k).1 extra := by
  obtain ⟨_, hT, hU⟩ := turboPost_inv α uR req opt backup st k hI
  constructor
  · intro q h
    rcases (hU q).mp h with h2 | h2
    · exact Or.inl h2
    · exact Or.inr (Or.inl h2)
  · intro q h
    rw [hT] at h
    exact Or.inl h

theorem classUB_weaken {a b : St} {e1 e2 : List String} (h : ClassUB a b e1)
    (he : ∀ q ∈ e1, q ∈ e2) : ClassUB a b e2 := by
  constructor
  · intro q hq
    rcases h.1 q hq with h2 | h2 | h2
    · exact Or.inl h2
    · exact Or.inr (Or.inl h2)
    · exact Or.inr (Or.inr (he q h2))
  · intro q hq
    rcases h.2 q hq with h2 | h2
    · exact Or.inl h2
    · exact Or.inr (he q h2)

/-- The contract of the turbo singleton loop under a clean oracle: on
fall-through every plugin of the sub-batch is classified; on an early return
(mega batch passed) every remaining candidate is classified.  In both cases
the ledger invariant is preserved, all new classifications come from the
sub-batch and `remaining`, and Safe ∪ Failed only grows. -/
def SinglesOK (st : St) (sub remaining : List String) : SRes → Prop
  | .go st1 _ _ =>
      LedgerInv st1 ∧ (∀ p ∈ sub, p ∈ st1.safe ∨ p ∈ st1.failed) ∧
      ClassUB st st1 sub ∧ UnionMono st st1
  | .early st2 _ _ =>
      LedgerInv st2 ∧ (∀ q ∈ remaining, q ∈ st2.safe ∨ q ∈ st2.failed) ∧
      ClassUB st st2 (sub ++ remaining) ∧ UnionMono st st2

theorem singlesOK_push (st : St) (sub remaining : List String) (r : SRes) (t : Trial) :
    SinglesOK st sub remaining (r.push t) ↔ SinglesOK st sub remaining r := by
  cases r <;> rfl

theorem turboSingles_clean (α : Nat → Outcome) (uR : Bool) (req opt backup : List String)
    (hα : CleanOracle α) :
    ∀ (sub remaining : List String) (st : St) (k : Nat),
    LedgerInv st → remaining.Nodup → sub.Nodup →
    (∀ p ∈ sub, p ∉ st.safe ∧ p ∉ st.failed) →
    SinglesOK st sub remaining (turboSingles α uR req opt backup remaining sub st k) := by
  intro sub
  induction sub with
  | nil =>
    intro remaining st k hI hrnd hsnd hun
    simp only [turboSingles, SinglesOK]
    exact ⟨hI, by simp, classUB_refl st [], unionMono_refl st⟩
  | cons p rest ih =>
    intro remaining st k hI hrnd hsnd hun
    have hpS : p ∉ st.safe := (hun p (List.mem_cons_self p rest)).1
    have hpF : p ∉ st.failed := (hun p (List.mem_cons_self p rest)).2
    have hsnd2 : rest.Nodup := (List.nodup_cons.mp hsnd).2
    have hpnr : p ∉ rest := (List.nodup_cons.mp hsnd).1
    have hsubcons : ∀ q ∈ ([p] : List String), q ∈ p :: rest := by
      intro q hq; rw [List.mem_singleton.mp hq]; exact List.mem_cons_self p rest
    have hrestcons : ∀ q ∈ rest, q ∈ p :: rest := fun q hq => List.mem_cons_of_mem p hq
    rcases hα k with hk | hk
    · -- the singleton trial passes
      have hI1 : LedgerInv (markSafe1 p st) := markSafe1_inv p st hpF hI
      have hun1 : ∀ q ∈ rest, q ∉ (markSafe1 p st).safe ∧ q ∉ (markSafe1 p st).failed := by
        intro q hq
        obtain ⟨h1, h2⟩ := hun q (List.mem_cons_of_mem p hq)
        refine ⟨fun hmem => ?_, h2⟩
        rcases guardAppend_mem_inv q p st.safe hmem with h3 | rfl
        · exact h1 h3
        · exact hpnr hq
      have hrec := ih remaining (markSafe1 p st) (k+1) hI1 hrnd hsnd2 hun1
      simp only [turboSingles, hk, singlesOK_push]
      cases hres : turboSingles α uR req opt backup remaining rest (markSafe1 p st) (k+1) with
      | go st1 k1 tr1 =>
        rw [hres] at hrec
        obtain ⟨hA, hB, hC, hD⟩ := hrec
        refine ⟨hA, ?_, ?_, unionMono_trans (unionMono_markSafe1 p st) hD⟩
        · intro q hq
          rcases List.mem_cons.mp hq with rfl | hq2
          · exact hD q (Or.inl (guardAppend_mem_self q st.safe))
          · exact hB q hq2
        · exact classUB_trans (classUB_markSafe1 p st) hC hsubcons hrestcons
      | early st2 k2 tr2 =>
        rw [hres] at hrec
        obtain ⟨hA, hB, hC, hD⟩ := hrec
        refine ⟨hA, hB, ?_, unionMono_trans (unionMono_markSafe1 p st) hD⟩
        refine classUB_trans (classUB_markSafe1 p st) hC ?_ ?_
        · intro q hq
          exact List.mem_append_left _ (hsubcons q hq)
        · intro q hq
          rcases List.mem_append.mp hq with h2 | h2
          · exact List.mem_append_left _ (hrestcons q h2)
          · exact List.mem_append_right _ h2
    · -- the singleton trial crashes: p is classified Failed
      have hI1 : LedgerInv (markFailed p st) := markFailed_inv p st hpS hI
      have hun1 : ∀ q ∈ rest, q ∉ (markFailed p st).safe ∧ q ∉ (markFailed p st).failed := by
        intro q hq
        obtain ⟨h1, h2⟩ := hun q (List.mem_cons_of_mem p hq)
        refine ⟨h1, fun hmem => ?_⟩
        rcases guardAppend_mem_inv q p st.failed hmem with h3 | rfl
        · exact h2 h3
        · exact hpnr hq
      simp only [turboSingles, hk]
      by_cases htrem : turboRemaining remaining (markFailed p st) = []
      · rw [if_pos htrem]
        rw [singlesOK_push]
        have hrec := ih remaining (markFailed p st) (k+1) hI1 hrnd hsnd2 hun1
        cases hres : turboSingles α uR req opt backup remaining rest (markFailed p st) (k+1) with
        | go st1 k1 tr1 =>
          rw [hres] at hrec
          obtain ⟨hA, hB, hC, hD⟩ := hrec
          refine ⟨hA, ?_, ?_, unionMono_trans (unionMono_markFailed p st) hD⟩
          · intro q hq
            rcases List.mem_cons.mp hq with rfl | hq2
            · exact hD q (Or.inr (guardAppend_mem_self q st.failed))
            · exact hB q hq2
          · exact classUB_trans (classUB_markFailed p st) hC hsubcons hrestcons
        | early st2 k2 tr2 =>
          rw [hres] at hrec
          obtain ⟨hA, hB, hC, hD⟩ := hrec
          refine ⟨hA, hB, ?_, unionMono_trans (unionMono_markFailed p st) hD⟩
          refine classUB_trans (classUB_markFailed p st) hC ?_ ?_
          · intro q hq
            exact List.mem_append_left _ (hsubcons q hq)
          · intro q hq
            rcases List.mem_append.mp hq with h2 | h2
            · exact List.mem_append_left _ (hrestcons q h2)
            · exact List.mem_append_right _ h2
      · rw [if_neg htrem]
        rcases hα (k+1) with hk1 | hk1
        · -- the mega batch passes: early return
          rw [hk1]
          simp only [SinglesOK]
          have htremF : ∀ q ∈ turboRemaining remaining (markFailed p st),
              q ∉ (markFailed p st).failed := by
            intro q hq
            exact ((mem_turboRemaining q remaining (markFailed p st)).mp hq).2.1
          have hI2 : LedgerInv (markSafeAll (turboRemaining remaining (markFailed p st))
              (markFailed p st)) :=
            markSafeAll_inv _ _ htremF hI1
          have hIpost := turboPost_inv α uR req opt backup
            (markSafeAll (turboRemaining remaining (markFailed p st)) (markFailed p st))
            (k+2) hI2
          refine ⟨hIpost.1, ?_, ?_, ?_⟩
          · intro q hq
            have hcov : q ∈ (markSafeAll (turboRemaining remaining (markFailed p st))
                (markFailed p st)).safe ∨
                q ∈ (markSafeAll (turboRemaining remaining (markFailed p st))
                (markFailed p st)).failed := by
              by_cases hq2 : q ∈ turboRemaining remaining (markFailed p st)
              · exact Or.inl (markSafeAll_safe_self _ _ q hq2)
              · have : q ∈ (markFailed p st).failed ∨ q ∈ (markFailed p st).safe := by
                  by_contra hcon
                  push_neg at hcon
                  exact hq2 ((mem_turboRemaining q remaining (markFailed p st)).mpr
                    ⟨hq, hcon.1, hcon.2⟩)
                rcases this with h2 | h2
                · right
                  rw [markSafeAll_failed_eq]
                  exact h2
                · exact Or.inl ((stMono_markSafeAll _ _).1 q h2)
            exact (hIpost.2.2 q).mpr hcov
          · have hC12 : ClassUB st
                (markSafeAll (turboRemaining remaining (markFailed p st)) (markFailed p st))
                ((p :: rest) ++ remaining) := by
              refine classUB_trans (classUB_markFailed p st) (classUB_markSafeAll _ _) ?_ ?_
              · intro q hq
                rw [List.mem_singleton.mp hq]
                exact List.mem_append_left _ (List.mem_cons_self p rest)
              · intro q hq
                exact List.mem_append_right _
                  ((mem_turboRemaining q remaining (markFailed p st)).mp hq).1
            have hC3 : ClassUB
                (markSafeAll (turboRemaining remaining (markFailed p st)) (markFailed p st))
                (turboPost α uR req opt backup
                  (markSafeAll (turboRemaining remaining (markFailed p st))
                    (markFailed p st)) (k+2)).1
                ((p :: rest) ++ remaining) :=
              classUB_turboPost α uR req opt backup _ (k+2) hI2 ((p :: rest) ++ remaining)
            exact classUB_trans hC12 hC3 (fun q hq => hq) (fun q hq => hq)
          · exact unionMono_trans (unionMono_markFailed p st)
              (unionMono_trans (unionMono_markSafeAll _ _)
                (unionMono_turboPost α uR req opt backup _ (k+2) hI2))
        · -- the mega batch crashes: singles resume
          rw [hk1]
          rw [singlesOK_push, singlesOK_push]
          have hrec := ih remaining (markFailed p st) (k+2) hI1 hrnd hsnd2 hun1
          cases hres : turboSingles α uR req opt backup remaining rest (markFailed p st) (k+2) with
          | go st1 k1 tr1 =>
            rw [hres] at hrec
            obtain ⟨hA, hB, hC, hD⟩ := hrec
            refine ⟨hA, ?_, ?_, unionMono_trans (unionMono_markFailed p st) hD⟩
            · intro q hq
              rcases List.mem_cons.mp hq with rfl | hq2
              · exact hD q (Or.inr (guardAppend_mem_self q st.failed))
              · exact hB q hq2
            · exact classUB_trans (classUB_markFailed p st) hC hsubcons hrestcons
          | early st2 k2 tr2 =>
            rw [hres] at hrec
            obtain ⟨hA, hB, hC, hD⟩ := hrec
            refine ⟨hA, hB, ?_, unionMono_trans (unionMono_markFailed p st) hD⟩
            refine classUB_trans (classUB_markFailed p st) hC ?_ ?_
            · intro q hq
              exact List.mem_append_left _ (hsubcons q hq)
            · intro q hq
              rcases List.mem_append.mp hq with h2 | h2
              · exact List.mem_append_left _ (hrestcons q h2)
              · exact List.mem_append_right _ h2

/-- The contract of the turbo sub-batch loop under a clean oracle: on
fall-through every plugin of the flattened sub-batches is classified and the
filtered `remaining` is still duplicate-free, unclassified, and a sublist of
the incoming `remaining` with nothing lost (everything removed was
classified); on an early return every remaining candidate is classified. -/
def SubsOK (st : St) (flat remaining : List String) : BRes → Prop
  | .go st1 rem1 _ _ =>
      LedgerInv st1 ∧ (∀ p ∈ flat, p ∈ st1.safe ∨ p ∈ st1.failed) ∧
      rem1.Nodup ∧ (∀ q ∈ rem1, q ∉ st1.safe ∧ q ∉ st1.failed) ∧
      List.Sublist rem1 remaining ∧
      (∀ q ∈ remaining, q ∈ rem1 ∨ q ∈ st1.safe ∨ q ∈ st1.failed) ∧
      ClassUB st st1 remaining ∧ UnionMono st st1
  | .early st2 _ _ =>
      LedgerInv st2 ∧ (∀ q ∈ remaining, q ∈ st2.safe ∨ q ∈ st2.failed) ∧
      ClassUB st st2 remaining ∧ UnionMono st st2

theorem subsOK_push (st : St) (flat remaining : List String) (r : BRes) (t : Trial) :
    SubsOK st flat remaining (r.push t) ↔ SubsOK st flat remaining r := by
  cases r <;> rfl

theorem subsOK_pushAll (st : St) (flat remaining : List String) (r : BRes)
    (ts : List Trial) : SubsOK st flat remaining (r.pushAll ts) ↔ SubsOK st flat remaining r := by
  cases r <;> rfl

theorem turboSubs_clean (α : Nat → Outcome) (uR : Bool) (req opt backup : List String)
    (hα : CleanOracle α) :
    ∀ (subs : List (List String)) (remaining : List String) (st : St) (k : Nat),
    LedgerInv st → remaining.Nodup →
    (∀ q ∈ remaining, q ∉ st.safe ∧ q ∉ st.failed) →
    subs.flatten.Nodup → (∀ q ∈ subs.flatten, q ∈ remaining) →
    SubsOK st subs.flatten remaining
      (turboSubs α uR req opt backup subs remaining st k) := by
  intro subs
  induction subs with
  | nil =>
    intro remaining st k hI hrnd hD _ _
    simp only [turboSubs, SubsOK, List.flatten_nil]
    refine ⟨hI, by simp, hrnd, hD, List.Sublist.refl remaining, fun q hq => Or.inl hq,
      classUB_refl st remaining, unionMono_refl st⟩
  | cons sub subs ih =>
    intro remaining st k hI hrnd hD hfnd hfrem
    have hflat : (sub :: subs).flatten = sub ++ subs.flatten := List.flatten_cons
    have hsubnd : sub.Nodup := ((List.nodup_append.mp (hflat ▸ hfnd)).1)
    have hrestnd : subs.flatten.Nodup := ((List.nodup_append.mp (hflat ▸ hfnd)).2).1
    have hdisj : ∀ q ∈ sub, q ∉ subs.flatten := by
      intro q hq hq2
      exact ((List.nodup_append.mp (hflat ▸ hfnd)).2).2 hq hq2
    have hsubrem : ∀ q ∈ sub, q ∈ remaining := by
      intro q hq
      exact hfrem q (hflat ▸ List.mem_append_left _ hq)
    have hrestrem : ∀ q ∈ subs.flatten, q ∈ remaining := by
      intro q hq
      exact hfrem q (hflat ▸ List.mem_append_right _ hq)
    have hsubun : ∀ q ∈ sub, q ∉ st.safe ∧ q ∉ st.failed :=
      fun q hq => hD q (hsubrem q hq)
    rcases hα k with hk | hk
    · -- the sub-batch trial passes: commit it whole
      simp only [turboSubs, hk, subsOK_push]
      have hsubF : ∀ q ∈ sub, q ∉ st.failed := fun q hq => (hsubun q hq).2
      have hI1 : LedgerInv (markSafeAll sub st) := markSafeAll_inv sub st hsubF hI
      have hD1 : ∀ q ∈ remaining.filter (fun q => q ∉ (markSafeAll sub st).safe),
          q ∉ (markSafeAll sub st).safe ∧ q ∉ (markSafeAll sub st).failed := by
        intro q hq
        rw [List.mem_filter] at hq
        refine ⟨by simpa using hq.2, ?_⟩
        rw [markSafeAll_failed_eq]
        exact (hD q hq.1).2
      have hrnd1 : (remaining.filter (fun q => q ∉ (markSafeAll sub st).safe)).Nodup :=
        hrnd.sublist (List.filter_sublist remaining)
      have hrest1 : ∀ q ∈ subs.flatten,
          q ∈ remaining.filter (fun q => q ∉ (markSafeAll sub st).safe) := by
        intro q hq
        rw [List.mem_filter]
        refine ⟨hrestrem q hq, ?_⟩
        simp only [decide_eq_true_eq]
        intro hmem
        rcases (markSafeAll_UB sub st).1 q hmem with h2 | h2
        · exact (hD q (hrestrem q hq)).1 h2
        · exact hdisj q h2 hq
      have hrec := ih (remaining.filter (fun q => q ∉ (markSafeAll sub st).safe))
        (markSafeAll sub st) (k+1) hI1 hrnd1 hD1 hrestnd hrest1
      have hCsub : ClassUB st (markSafeAll sub st) remaining :=
        classUB_weaken (classUB_markSafeAll sub st) hsubrem
      have hUsub : UnionMono st (markSafeAll sub st) := unionMono_markSafeAll sub st
      cases hres : turboSubs α uR req opt backup subs
          (remaining.filter (fun q => q ∉ (markSafeAll sub st).safe))
          (markSafeAll sub st) (k+1) with
      | go st1 rem1 k1 tr1 =>
        rw [hres] at hrec
        obtain ⟨hA, hB, hC, hDq, hE, hF, hG, hH⟩ := hrec
        rw [hflat]
        refine ⟨hA, ?_, hC, hDq, hE.trans (List.filter_sublist remaining), ?_, ?_,
          unionMono_trans hUsub hH⟩
        · intro q hq
          rcases List.mem_append.mp hq with h2 | h2
          · rcases hH q (Or.inl (markSafeAll_safe_self sub st q h2)) with h3 | h3
            · exact Or.inl h3
            · exact Or.inr h3
          · exact hB q h2
        · intro q hq
          by_cases hq2 : q ∈ remaining.filter (fun q => q ∉ (markSafeAll sub st).safe)
          · rcases hF q hq2 with h3 | h3
            · exact Or.inl h3
            · exact Or.inr h3
          · have hq3 : q ∈ (markSafeAll sub st).safe := by
              by_contra hcon
              exact hq2 (by rw [List.mem_filter]; exact ⟨hq, by simpa using hcon⟩)
            rcases hH q (Or.inl hq3) with h3 | h3
            · exact Or.inr (Or.inl h3)
            · exact Or.inr (Or.inr h3)
        · refine classUB_trans hCsub hG (fun q hq => hq) ?_
          intro q hq
          exact (List.mem_filter.mp hq).1
      | early st2 k2 tr2 =>
        rw [hres] at hrec
        obtain ⟨hA, hB, hC, hDq⟩ := hrec
        refine ⟨hA, ?_, ?_, unionMono_trans hUsub hDq⟩
        · intro q hq
          by_cases hq2 : q ∈ remaining.filter (fun q => q ∉ (markSafeAll sub st).safe)
          · exact hB q hq2
          · have hq3 : q ∈ (markSafeAll sub st).safe := by
              by_contra hcon
              exact hq2 (by rw [List.mem_filter]; exact ⟨hq, by simpa using hcon⟩)
            exact hDq q (Or.inl hq3)
        · refine classUB_trans hCsub hC (fun q hq => hq) ?_
          intro q hq
          exact (List.mem_filter.mp hq).1
    · -- the sub-batch trial crashes: run the singleton loop
      simp only [turboSubs, hk]
      have hsingle := turboSingles_clean α uR req opt backup hα sub remaining st (k+1)
        hI hrnd hsubnd hsubun
      cases hres : turboSingles α uR req opt backup remaining sub st (k+1) with
      | early st2 k2 tr2 =>
        rw [hres] at hsingle
        obtain ⟨hA, hB, hC, hDq⟩ := hsingle
        simp only [SubsOK]
        refine ⟨hA, hB, ?_, hDq⟩
        refine classUB_weaken hC ?_
        intro q hq
        rcases List.mem_append.mp hq with h2 | h2
        · exact hsubrem q h2
        · exact h2
      | go st1 k1 tr1 =>
        rw [hres] at hsingle
        obtain ⟨hA, hB, hC, hDq⟩ := hsingle
        rw [subsOK_push, subsOK_pushAll]
        have hD1 : ∀ q ∈ turboRemaining remaining st1,
            q ∉ st1.safe ∧ q ∉ st1.failed := by
          intro q hq
          have := (mem_turboRemaining q remaining st1).mp hq
          exact ⟨this.2.2, this.2.1⟩
        have hrnd1 : (turboRemaining remaining st1).Nodup :=
          hrnd.sublist (sublist_turboRemaining remaining st1)
        have hrest1 : ∀ q ∈ subs.flatten, q ∈ turboRemaining remaining st1 := by
          intro q hq
          rw [mem_turboRemaining]
          have hqrem := hrestrem q hq
          have hqun := hD q hqrem
          refine ⟨hqrem, fun hmem => ?_, fun hmem => ?_⟩
          · rcases hC.1 q (Or.inr hmem) with h2 | h2 | h2
            · exact hqun.1 h2
            · exact hqun.2 h2
            · exact hdisj q h2 hq
          · rcases hC.1 q (Or.inl hmem) with h2 | h2 | h2
            · exact hqun.1 h2
            · exact hqun.2 h2
            · exact hdisj q h2 hq
        have hrec := ih (turboRemaining remaining st1) st1 k1 hA hrnd1 hD1 hrestnd hrest1
        have hCsub : ClassUB st st1 remaining := classUB_weaken hC hsubrem
        cases hres2 : turboSubs α uR req opt backup subs
            (turboRemaining remaining st1) st1 k1 with
        | go st2 rem2 k2 tr2 =>
          rw [hres2] at hrec
          obtain ⟨hA2, hB2, hC2, hD2, hE2, hF2, hG2, hH2⟩ := hrec
          rw [hflat]
          refine ⟨hA2, ?_, hC2, hD2,
            hE2.trans (sublist_turboRemaining remaining st1), ?_, ?_,
            unionMono_trans hDq hH2⟩
          · intro q hq
            rcases List.mem_append.mp hq with h2 | h2
            · rcases hH2 q (hB q h2) with h3 | h3
              · exact Or.inl h3
              · exact Or.inr h3
            · exact hB2 q h2
          · intro q hq
            by_cases hq2 : q ∈ turboRemaining remaining st1
            · rcases hF2 q hq2 with h3 | h3
              · exact Or.inl h3
              · exact Or.inr h3
            · have hq3 : q ∈ st1.safe ∨ q ∈ st1.failed := by
                by_contra hcon
                push_neg at hcon
                exact hq2 ((mem_turboRemaining q remaining st1).mpr
                  ⟨hq, hcon.2, hcon.1⟩)
              rcases hH2 q hq3 with h3 | h3
              · exact Or.inr (Or.inl h3)
              · exact Or.inr (Or.inr h3)
          · refine classUB_trans hCsub hG2 (fun q hq => hq) ?_
            intro q hq
            exact ((mem_turboRemaining q remaining st1).mp hq).1
        | early st2 k2 tr2 =>
          rw [hres2] at hrec
          obtain ⟨hA2, hB2, hC2, hD2⟩ := hrec
          refine ⟨hA2, ?_, ?_, unionMono_trans hDq hD2⟩
          · intro q hq
            by_cases hq2 : q ∈ turboRemaining remaining st1
            · exact hB2 q hq2
            · have hq3 : q ∈ st1.safe ∨ q ∈ st1.failed := by
                by_contra hcon
                push_neg at hcon
                exact hq2 ((mem_turboRemaining q remaining st1).mpr
                  ⟨hq, hcon.2, hcon.1⟩)
              exact hD2 q hq3
          · refine classUB_trans hCsub hC2 (fun q hq => hq) ?_
            intro q hq
            exact ((mem_turboRemaining q remaining st1).mp hq).1

/-- The contract of the turbo `while` loop under a clean oracle with enough
fuel: the loop terminates normally (`some`), preserves the ledger invariant,
classifies every remaining candidate, and adds nothing from outside
`remaining`. -/
def LoopOK (st : St) (remaining : List String) :
    Option (St × Nat × List Trial) → Prop
  | none => False
  | some r =>
      LedgerInv r.1 ∧ (∀ q ∈ remaining, q ∈ r.1.safe ∨ q ∈ r.1.failed) ∧
      ClassUB st r.1 remaining ∧ UnionMono st r.1

theorem loopOK_post (α : Nat → Outcome) (uR : Bool) (req opt backup : List String)
    (st : St) (k : Nat) (hI : LedgerInv st) :
    LoopOK st [] (some (turboPost α uR req opt backup st k)) := by
  simp only [LoopOK]
  exact ⟨(turboPost_inv α uR req opt backup st k hI).1, by simp,
    classUB_turboPost α uR req opt backup st k hI [],
    unionMono_turboPost α uR req opt backup st k hI⟩

theorem turboLoop_clean (α : Nat → Outcome) (uR : Bool) (req opt backup : List String)
    (batchSize : Nat) (hα : CleanOracle α) (hbs : 1 ≤ batchSize) :
    ∀ (fuel : Nat) (remaining : List String) (st : St) (k : Nat),
    LedgerInv st → remaining.Nodup →
    (∀ q ∈ remaining, q ∉ st.safe ∧ q ∉ st.failed) →
    remaining.length ≤ fuel →
    LoopOK st remaining (turboLoop α uR req opt backup batchSize fuel remaining st k) := by
  intro fuel
  induction fuel with
  | zero =>
    intro remaining st k hI hrnd hD hlen
    have hrem : remaining = [] := List.eq_nil_of_length_eq_zero (Nat.le_zero.mp hlen)
    subst hrem
    simp only [turboLoop, if_pos]
    exact loopOK_post α uR req opt backup st k hI
  | succ fuel ih =>
    intro remaining st k hI hrnd hD hlen
    by_cases hrem : remaining = []
    · subst hrem
      simp only [turboLoop, if_pos]
      exact loopOK_post α uR req opt backup st k hI
    · obtain ⟨h0, t0, ht0⟩ := List.exists_cons_of_ne_nil hrem
      have hhead : h0 ∈ remaining.take batchSize := by
        obtain ⟨m, rfl⟩ := Nat.exists_eq_add_of_le hbs
        rw [ht0]
        rw [Nat.add_comm 1 m]
        rw [List.take_succ_cons]
        exact List.mem_cons_self _ _
      have hheadrem : h0 ∈ remaining := by rw [ht0]; exact List.mem_cons_self _ _
      have htake : ∀ q ∈ remaining.take batchSize, q ∈ remaining :=
        fun q hq => (List.take_sublist batchSize remaining).subset hq
      simp only [turboLoop]
      rw [if_neg hrem]
      rcases hα k with hk | hk
      · -- the batch trial passes
        rw [hk]
        have hbF : ∀ q ∈ remaining.take batchSize, q ∉ st.failed :=
          fun q hq => (hD q (htake q hq)).2
        have hI1 : LedgerInv (markSafeAll (remaining.take batchSize) st) :=
          markSafeAll_inv _ st hbF hI
        have hD1 : ∀ q ∈ remaining.filter
            (fun q => q ∉ (markSafeAll (remaining.take batchSize) st).safe),
            q ∉ (markSafeAll (remaining.take batchSize) st).safe ∧
            q ∉ (markSafeAll (remaining.take batchSize) st).failed := by
          intro q hq
          rw [List.mem_filter] at hq
          refine ⟨by simpa using hq.2, ?_⟩
          rw [markSafeAll_failed_eq]
          exact (hD q hq.1).2
        have hrnd1 : (remaining.filter
            (fun q => q ∉ (markSafeAll (remaining.take batchSize) st).safe)).Nodup :=
          hrnd.sublist (List.filter_sublist remaining)
        have hlen1 : (remaining.filter
            (fun q => q ∉ (markSafeAll (remaining.take batchSize) st).safe)).length ≤ fuel := by
          have hnot : h0 ∉ remaining.filter
              (fun q => q ∉ (markSafeAll (remaining.take batchSize) st).safe) := by
            intro hmem
            rw [List.mem_filter] at hmem
            have := hmem.2
            simp only [decide_eq_true_eq] at this
            exact this (markSafeAll_safe_self _ st h0 hhead)
          have hlt := sublist_length_lt (List.filter_sublist remaining) h0 hheadrem hnot
          omega
        have hrec := ih (remaining.filter
            (fun q => q ∉ (markSafeAll (remaining.take batchSize) st).safe))
          (markSafeAll (remaining.take batchSize) st) (k+1) hI1 hrnd1 hD1 hlen1
        have hCsub : ClassUB st (markSafeAll (remaining.take batchSize) st) remaining :=
          classUB_weaken (classUB_markSafeAll _ st) htake
        have hUsub : UnionMono st (markSafeAll (remaining.take batchSize) st) :=
          unionMono_markSafeAll _ st
        cases hres : turboLoop α uR req opt backup batchSize fuel
            (remaining.filter
              (fun q => q ∉ (markSafeAll (remaining.take batchSize) st).safe))
            (markSafeAll (remaining.take batchSize) st) (k+1) with
        | none => rw [hres] at hrec; exact absurd hrec (by simp [LoopOK])
        | some r =>
          rw [hres] at hrec
          obtain ⟨hA, hB, hC, hDq⟩ := hrec
          simp only [Option.map_some, LoopOK]
          refine ⟨hA, ?_, ?_, unionMono_trans hUsub hDq⟩
          · intro q hq
            by_cases hq2 : q ∈ remaining.filter
                (fun q => q ∉ (markSafeAll (remaining.take batchSize) st).safe)
            · exact hB q hq2
            · have hq3 : q ∈ (markSafeAll (remaining.take batchSize) st).safe := by
                by_contra hcon
                exact hq2 (by rw [List.mem_filter]; exact ⟨hq, by simpa using hcon⟩)
              exact hDq q (Or.inl hq3)
          · refine classUB_trans hCsub hC (fun q hq => hq) ?_
            intro q hq
            exact (List.mem_filter.mp hq).1
      · -- the batch trial crashes: sub-batch loop
        rw [hk]
        have hflat : (chunksOf (get_batch_size (remaining.take batchSize).length)
            (remaining.take batchSize)).flatten = remaining.take batchSize :=
          chunksOf_join _ (get_batch_size_pos _) _
        have hfnd : (chunksOf (get_batch_size (remaining.take batchSize).length)
            (remaining.take batchSize)).flatten.Nodup := by
          rw [hflat]
          exact hrnd.sublist (List.take_sublist batchSize remaining)
        have hfrem : ∀ q ∈ (chunksOf (get_batch_size (remaining.take batchSize).length)
            (remaining.take batchSize)).flatten, q ∈ remaining := by
          rw [hflat]
          exact htake
        have hsubs := turboSubs_clean α uR req opt backup hα
          (chunksOf (get_batch_size (remaining.take batchSize).length)
            (remaining.take batchSize)) remaining st (k+1) hI hrnd hD hfnd hfrem
        rw [hflat] at hsubs
        cases hres : turboSubs α uR req opt backup
            (chunksOf (get_batch_size (remaining.take batchSize).length)
              (remaining.take batchSize)) remaining st (k+1) with
        | early st2 k2 tr2 =>
          rw [hres] at hsubs
          obtain ⟨hA, hB, hC, hDq⟩ := hsubs
          simp only [LoopOK]
          exact ⟨hA, hB, hC, hDq⟩
        | go st1 rem1 k1 tr1 =>
          rw [hres] at hsubs
          obtain ⟨hA, hB, hC, hDq, hE, hF, hG, hH⟩ := hsubs
          have hlen1 : rem1.length ≤ fuel := by
            have hnot : h0 ∉ rem1 := by
              intro hmem
              rcases hB h0 hhead with h2 | h2
              · exact (hDq h0 hmem).1 h2
              · exact (hDq h0 hmem).2 h2
            have hlt := sublist_length_lt hE h0 hheadrem hnot
            omega
          have hrec := ih rem1 st1 k1 hA (hrnd.sublist hE) hDq hlen1
          cases hres2 : turboLoop α uR req opt backup batchSize fuel rem1 st1 k1 with
          | none => rw [hres2] at hrec; exact absurd hrec (by simp [LoopOK])
          | some r =>
            rw [hres2] at hrec
            obtain ⟨hA2, hB2, hC2, hD2⟩ := hrec
            simp only [hres2, Option.map_some, LoopOK]
            refine ⟨hA2, ?_, ?_, unionMono_trans hH hD2⟩
            · intro q hq
              rcases hF q hq with h2 | h2
              · exact hB2 q h2
              · exact hD2 q h2
            · refine classUB_trans hG hC2 (fun q hq => hq) ?_
              intro q hq
              exact (hE.subset hq)

/-- C6 amended: for any run of turbo mode that completes normally (the
oracle only passes or crashes - no pause, no write or launch failure - and
the loop bound suffices), started as `isolate_esps` starts it (empty ledger,
duplicate-free candidates disjoint from the configured required and optional
lists), every initial candidate ends classified in exactly one of Safe and
Failed, `|Safe| + |Failed| = |Tested|`, and Tested consists exactly of the
initial candidates together with the required and optional plugins - so
`|Tested|` exceeds the candidate count by the number of seeded plugins. -/
theorem C6_theorem (α : Nat → Outcome) (uR : Bool) (req opt backup : List String)
    (batchSize fuel : Nat) (to_test patch : List String)
    (hα : CleanOracle α) (hbs : 1 ≤ batchSize)
    (hnd : (to_test ++ patch).Nodup)
    (hdisj : ∀ p ∈ to_test ++ patch, p ∉ req ++ opt)
    (hfuel : (to_test ++ patch).length ≤ fuel) :
    ∃ S k2 tr,
      turbo_batch_mode α uR req opt backup batchSize fuel to_test patch [] =
        some (S, k2, tr) ∧
      S.tested.length = S.safe.length + S.failed.length ∧
      (∀ p, p ∈ S.tested ↔ (p ∈ to_test ++ patch ∨ p ∈ req ++ opt)) ∧
      (∀ p ∈ to_test ++ patch,
        (p ∈ S.safe ∧ p ∉ S.failed) ∨ (p ∈ S.failed ∧ p ∉ S.safe)) := by
  have hI0 : LedgerInv ⟨[], [], []⟩ := ⟨by simp, by simp⟩
  have hI1 : LedgerInv (markSafeAll (req ++ opt) ⟨[], [], []⟩) :=
    markSafeAll_inv (req ++ opt) ⟨[], [], []⟩ (fun p _ h => by simp at h) hI0
  have hD : ∀ q ∈ to_test ++ patch,
      q ∉ (markSafeAll (req ++ opt) ⟨[], [], []⟩).safe ∧
      q ∉ (markSafeAll (req ++ opt) ⟨[], [], []⟩).failed := by
    intro q hq
    constructor
    · intro hmem
      rcases (markSafeAll_UB (req ++ opt) ⟨[], [], []⟩).1 q hmem with h2 | h2
      · simp at h2
      · exact hdisj q hq h2
    · rw [markSafeAll_failed_eq]
      intro hmem
      simp at hmem
  have hloop := turboLoop_clean α uR req opt backup batchSize hα hbs fuel
    (to_test ++ patch) (markSafeAll (req ++ opt) ⟨[], [], []⟩) 0 hI1 hnd hD hfuel
  unfold turbo_batch_mode
  cases hres : turboLoop α uR req opt backup batchSize fuel (to_test ++ patch)
      (markSafeAll (req ++ opt) ⟨[], [], []⟩) 0 with
  | none => rw [hres] at hloop; exact absurd hloop (by simp [LoopOK])
  | some r =>
    rw [hres] at hloop
    simp only [LoopOK] at hloop
    obtain ⟨hA, hB, hC, hD2⟩ := hloop
    obtain ⟨S, k2, tr⟩ := r
    have hmono := turboLoop_mono α uR req opt backup batchSize fuel (to_test ++ patch)
      (markSafeAll (req ++ opt) ⟨[], [], []⟩) 0 S k2 tr hres
    refine ⟨S, k2, tr, rfl, ?_, ?_, ?_⟩
    · have := hA.2.length_eq
      simpa [List.length_append] using this
    · intro p
      constructor
      · intro hp
        rcases hC.2 p hp with h2 | h2
        · rcases (markSafeAll_UB (req ++ opt) ⟨[], [], []⟩).2 p h2 with h3 | h3
          · simp at h3
          · exact Or.inr h3
        · exact Or.inl h2
      · intro hp
        rcases hp with h2 | h2
        · rcases hB p h2 with h3 | h3
          · exact hA.2.mem_iff.mpr (List.mem_append_left _ h3)
          · exact hA.2.mem_iff.mpr (List.mem_append_right _ h3)
        · exact hmono.2 p (markSafeAll_tested_self (req ++ opt) ⟨[], [], []⟩ p h2)
    · intro p hp
      have hdisj2 := List.disjoint_of_nodup_append hA.1
      rcases hB p hp with h3 | h3
      · exact Or.inl ⟨h3, fun hf => hdisj2 h3 hf⟩
      · refine Or.inr ⟨h3, fun hs => hdisj2 hs h3⟩

/-- Witness for C6's amended theorem at a concrete completed run. -/
theorem C6_witness :
    CleanOracle alwaysPass ∧
    (∃ S k2 tr,
      turbo_batch_mode alwaysPass false ["r"] [] [] 10 5 ["a"] [] [] =
        some (S, k2, tr) ∧
      S.tested.length = S.safe.length + S.failed.length ∧
      (∀ p, p ∈ S.tested ↔ (p ∈ ["a"] ++ ([] : List String) ∨ p ∈ ["r"] ++ ([] : List String))) ∧
      (∀ p ∈ ["a"] ++ ([] : List String),
        (p ∈ S.safe ∧ p ∉ S.failed) ∨ (p ∈ S.failed ∧ p ∉ S.safe))) :=
  ⟨fun _ => Or.inl rfl,
   C6_theorem alwaysPass false ["r"] [] [] 10 5 ["a"] [] (fun _ => Or.inl rfl)
     (by decide) (by decide) (by decide) (by decide)⟩
